import Mathlib

/-!
Verification development for the `bwenv` tool: a shallow embedding of its
env-file codec, reconciliation (status diff), pull command, and the
`sync_secrets` composite algorithm over the in-memory mock provider, with
theorems checking the natural-language specification against the code.

All text processing is modelled on `List Char` (the `data` of a `String`)
with total structural recursion, so every definition evaluates.  Rust
`HashMap`s are modelled as association lists whose list order stands for
the map's (arbitrary but fixed) iteration order; `insert` replaces the
value of an existing key in place and appends a fresh key at the end.
-/

set_option autoImplicit false

namespace Bwenv

/-! ### Character-list and string utilities -/

/-- Splits a character list at every occurrence of the character `c`
(the separator is dropped).  The result is always non-empty. -/
def splitOnChar (c : Char) : List Char → List (List Char)
  | [] => [[]]
  | a :: rest =>
    let r := splitOnChar c rest
    if a = c then [] :: r
    else match r with
      | [] => [[a]]
      | h :: t => (a :: h) :: t

/-- Removes one trailing carriage return, as Rust's `str::lines` does for a
line terminated by `"\r\n"`. -/
def stripCR (l : List Char) : List Char :=
  if l.getLast? = some '\r' then l.dropLast else l

/-- Model of Rust's `str::lines()`: split on `'\n'`, drop a final empty
piece (the optional final line terminator), and strip one trailing `'\r'`
from every terminated line.  An unterminated final line keeps its `'\r'`. -/
def rustLines (s : String) : List String :=
  let parts := splitOnChar '\n' s.data
  let body := (parts.dropLast.map stripCR).map String.mk
  if parts.getLast? = some [] then body
  else body ++ [String.mk (parts.getLast?.getD [])]

/-- Whether the string starts with the character `c`
(Rust `str::starts_with(char)`). -/
def startsWithChar (s : String) (c : Char) : Bool :=
  match s.data with
  | [] => false
  | a :: _ => a = c

/-- Trim of leading and trailing whitespace on a character list
(Rust `str::trim`). -/
def trimChars (l : List Char) : List Char :=
  ((l.dropWhile Char.isWhitespace).reverse.dropWhile Char.isWhitespace).reverse

/-! ### Association lists as the model of `HashMap<String, β>` -/

/-- Lookup in an association list (`HashMap::get`). -/
def alookup {β : Type} : List (String × β) → String → Option β
  | [], _ => none
  | p :: rest, k => if p.1 = k then some p.2 else alookup rest k

/-- Insert into an association list (`HashMap::insert`): replace the value
of an existing key in place, otherwise append the new entry at the end. -/
def insertEntry {β : Type} : List (String × β) → String → β → List (String × β)
  | [], k, v => [(k, v)]
  | p :: rest, k, v => if p.1 = k then (k, v) :: rest else p :: insertEntry rest k v

/-- The keys of an association list, in iteration order. -/
def keysOf {β : Type} (l : List (String × β)) : List String := l.map Prod.fst

/-- Folding a list of pairs into an association list
(`collect::<HashMap<_, _>>` and insertion loops). -/
def foldInsert {β : Type} (acc : List (String × β)) (ps : List (String × β)) :
    List (String × β) :=
  ps.foldl (fun a p => insertEntry a p.1 p.2) acc

theorem alookup_insertEntry_self {β : Type} (l : List (String × β)) (k : String) (v : β) :
    alookup (insertEntry l k v) k = some v := by
  induction l with
  | nil => simp [insertEntry, alookup]
  | cons p rest ih =>
      by_cases h : p.1 = k
      · simp [insertEntry, h, alookup]
      · simp [insertEntry, h, alookup, ih]

theorem alookup_insertEntry_ne {β : Type} (l : List (String × β)) (k k' : String) (v : β)
    (h : k ≠ k') : alookup (insertEntry l k v) k' = alookup l k' := by
  induction l with
  | nil => simp [insertEntry, alookup, h]
  | cons p rest ih =>
      by_cases hp : p.1 = k
      · have h2 : ¬ (p.1 = k') := by rw [hp]; exact h
        simp [insertEntry, hp, alookup, h, h2]
      · simp only [insertEntry, if_neg hp, alookup]
        by_cases hp' : p.1 = k'
        · simp [hp']
        · simp [hp', ih]

theorem keysOf_insertEntry_mem {β : Type} (l : List (String × β)) (k : String) (v : β)
    (h : k ∈ keysOf l) : keysOf (insertEntry l k v) = keysOf l := by
  induction l with
  | nil => simp [keysOf] at h
  | cons p rest ih =>
      by_cases hp : p.1 = k
      · simp [insertEntry, hp, keysOf]
      · have hmem : k ∈ keysOf rest := by
          simp [keysOf] at h
          rcases h with h | h
          · exact absurd h.symm hp
          · simpa [keysOf] using h
        simp only [insertEntry, if_neg hp, keysOf, List.map_cons]
        have := ih hmem
        simp only [keysOf] at this
        rw [this]

theorem keysOf_insertEntry_not_mem {β : Type} (l : List (String × β)) (k : String) (v : β)
    (h : ¬ k ∈ keysOf l) : keysOf (insertEntry l k v) = keysOf l ++ [k] := by
  induction l with
  | nil => simp [insertEntry, keysOf]
  | cons p rest ih =>
      simp [keysOf] at h
      push_neg at h
      simp [insertEntry, Ne.symm h.1, keysOf] at ih ⊢
      exact ih h.2

theorem keysOf_nodup_insertEntry {β : Type} (l : List (String × β)) (k : String) (v : β)
    (h : (keysOf l).Nodup) : (keysOf (insertEntry l k v)).Nodup := by
  by_cases hk : k ∈ keysOf l
  · rw [keysOf_insertEntry_mem l k v hk]; exact h
  · rw [keysOf_insertEntry_not_mem l k v hk]
    simp [List.nodup_append, h, hk]

theorem alookup_append {β : Type} (l₁ l₂ : List (String × β)) (k : String) :
    alookup (l₁ ++ l₂) k =
      match alookup l₁ k with
      | some v => some v
      | none => alookup l₂ k := by
  induction l₁ with
  | nil => simp [alookup]
  | cons p rest ih =>
      by_cases hp : p.1 = k
      · simp [alookup, hp]
      · simp [alookup, hp, ih]

theorem alookup_eq_headFilter {β : Type} (l : List (String × β)) (k : String) :
    alookup l k = ((l.filter (fun p => p.1 = k)).head?).map Prod.snd := by
  induction l with
  | nil => simp [alookup]
  | cons p rest ih =>
      by_cases hp : p.1 = k
      · simp [alookup, hp, List.filter_cons]
      · simp [alookup, hp, List.filter_cons, ih]

theorem alookup_reverse_eq_lastFilter {β : Type} (l : List (String × β)) (k : String) :
    alookup l.reverse k = ((l.filter (fun p => p.1 = k)).getLast?).map Prod.snd := by
  rw [alookup_eq_headFilter, List.filter_reverse, List.head?_reverse]

theorem foldInsert_alookup {β : Type} (ps : List (String × β)) (acc : List (String × β))
    (k : String) :
    alookup (foldInsert acc ps) k =
      match alookup ps.reverse k with
      | some v => some v
      | none => alookup acc k := by
  induction ps generalizing acc with
  | nil => simp [foldInsert, alookup]
  | cons p rest ih =>
      show alookup (foldInsert (insertEntry acc p.1 p.2) rest) k = _
      rw [ih, List.reverse_cons, alookup_append]
      cases alookup rest.reverse k with
      | some v => simp
      | none =>
          by_cases hp : p.1 = k
          · subst hp; simp [alookup, alookup_insertEntry_self]
          · simp [alookup, hp, alookup_insertEntry_ne acc p.1 k p.2 hp]

theorem foldInsert_keys_nodup {β : Type} (ps : List (String × β)) (acc : List (String × β))
    (h : (keysOf acc).Nodup) : (keysOf (foldInsert acc ps)).Nodup := by
  induction ps generalizing acc with
  | nil => exact h
  | cons p rest ih =>
      exact ih (insertEntry acc p.1 p.2) (keysOf_nodup_insertEntry acc p.1 p.2 h)

/-! ### The notes parser of `retrieve_secrets` (src/bitwarden.rs, lines 224-234)

```rust
for line in notes.lines() {
    if line.is_empty() || line.starts_with('#') { continue; }
    if let Some(pos) = line.find('=') {
        let key = line[..pos].trim().to_string();
        let value = line[pos + 1..].trim().to_string();
        env_vars.insert(key, value);
    }
}
```
-/

/-- One iteration of the parsing loop of `retrieve_secrets`: `none` when the
line is skipped or has no `'='`, otherwise the trimmed key/value pair split
at the first `'='`. -/
def lineEntry (line : String) : Option (String × String) :=
  if line.data.isEmpty || startsWithChar line '#' then none
  else if line.data.contains '=' then
    some (String.mk (trimChars (line.data.takeWhile (fun c => c ≠ '='))),
          String.mk (trimChars ((line.data.dropWhile (fun c => c ≠ '=')).tail)))
  else none

/-- The whole parsing loop of `retrieve_secrets` over a list of lines. -/
def parseLines (ls : List String) : List (String × String) :=
  ls.foldl
    (fun acc line =>
      match lineEntry line with
      | none => acc
      | some (k, v) => insertEntry acc k v)
    []

/-- The parsing part of `retrieve_secrets` (src/bitwarden.rs): split the
notes into lines and fold them into a key-value map. -/
def retrieve_secrets_parse (notes : String) : List (String × String) :=
  parseLines (rustLines notes)

theorem parseLines_eq_foldInsert (ls : List String) :
    parseLines ls = foldInsert [] (ls.filterMap lineEntry) := by
  show List.foldl _ [] ls = _
  rw [foldInsert]
  generalize ([] : List (String × String)) = acc
  induction ls generalizing acc with
  | nil => rfl
  | cons l rest ih =>
      simp only [List.foldl_cons, List.filterMap_cons]
      cases lineEntry l with
      | none => exact ih acc
      | some p => cases p; simp only [List.foldl_cons]; exact ih _

/-- C3: the mapping produced by the read operation has no duplicate keys,
and each key is bound to the value of the last entry line carrying it
(last-write-wins). -/
theorem retrieve_secrets_no_dup_last_write_wins (notes : String) (k : String) :
    (keysOf (retrieve_secrets_parse notes)).Nodup ∧
    alookup (retrieve_secrets_parse notes) k =
      ((((rustLines notes).filterMap lineEntry).filter
          (fun p => p.1 = k)).getLast?).map Prod.snd := by
  constructor
  · rw [retrieve_secrets_parse, parseLines_eq_foldInsert]
    exact foldInsert_keys_nodup _ [] (by simp [keysOf])
  · rw [retrieve_secrets_parse, parseLines_eq_foldInsert, foldInsert_alookup,
      alookup_reverse_eq_lastFilter]
    cases ((((rustLines notes).filterMap lineEntry).filter
        (fun p => p.1 = k)).getLast?).map Prod.snd with
    | none => simp [alookup]
    | some v => simp

/-- C9 (amended): a line that is empty, or starts with `'#'` without
trimming, contributes no entry: the mapping is the same as if the line were
absent.  (The source checks `line.is_empty() || line.starts_with('#')` on
the untrimmed line, so a comment preceded by whitespace is not skipped.) -/
theorem retrieve_secrets_skips_untrimmed_ignorable (notes : String)
    (l₁ l₂ : List String) (line : String)
    (hsplit : rustLines notes = l₁ ++ line :: l₂)
    (hign : (line.data.isEmpty || startsWithChar line '#') = true) :
    retrieve_secrets_parse notes = parseLines (l₁ ++ l₂) := by
  have hent : lineEntry line = none := by
    rw [lineEntry, if_pos hign]
  rw [retrieve_secrets_parse, hsplit, parseLines, parseLines, List.foldl_append,
    List.foldl_append, List.foldl_cons, hent]

/-! ### Status diff (src/commands/status/mod.rs, lines 50-63)

```rust
let only_remote: Vec<_> = remote_keys.difference(&local_keys).collect();
let only_local: Vec<_> = local_keys.difference(&remote_keys).collect();
let in_both: Vec<_> = remote_keys.intersection(&local_keys).collect();
let mut different_values = Vec::new();
for key in &in_both {
    if remote_secrets.get(*key as &str) != local_secrets.get(*key as &str) {
        different_values.push(*key);
    }
}
```

The `matching` set of the specification is the complement of
`different_values` inside `in_both` (the in-sync check of the command
counts all of `in_both` as matching when `different_values` is empty).
-/

/-- Keys present remotely but not locally. -/
def statusOnlyRemote (localm remotem : List (String × String)) : List String :=
  (keysOf remotem).filter (fun k => !(keysOf localm).contains k)

/-- Keys present locally but not remotely. -/
def statusOnlyLocal (localm remotem : List (String × String)) : List String :=
  (keysOf localm).filter (fun k => !(keysOf remotem).contains k)

/-- Keys present on both sides. -/
def statusInBoth (localm remotem : List (String × String)) : List String :=
  (keysOf remotem).filter (fun k => (keysOf localm).contains k)

/-- Keys present on both sides whose values differ. -/
def statusDiffering (localm remotem : List (String × String)) : List String :=
  (statusInBoth localm remotem).filter
    (fun k => !(alookup remotem k = alookup localm k))

/-- Keys present on both sides whose values are equal. -/
def statusMatching (localm remotem : List (String × String)) : List String :=
  (statusInBoth localm remotem).filter
    (fun k => alookup remotem k = alookup localm k)

theorem contains_eq_decide_mem (l : List String) (k : String) :
    l.contains k = decide (k ∈ l) := by
  induction l with
  | nil => simp
  | cons a rest ih =>
      by_cases h : a = k
      · simp [h]
      · simp [List.contains_cons, ih, h, Ne.symm h]

/-- C5: the four key sets computed by the status command are pairwise
disjoint and together cover exactly the union of the local and remote key
sets: every key of either mapping lies in exactly one of the four. -/
theorem status_diff_partition (localm remotem : List (String × String)) (k : String) :
    ((k ∈ keysOf localm ∨ k ∈ keysOf remotem) ↔
      (k ∈ statusMatching localm remotem ∨ k ∈ statusDiffering localm remotem ∨
       k ∈ statusOnlyLocal localm remotem ∨ k ∈ statusOnlyRemote localm remotem)) ∧
    ¬ (k ∈ statusMatching localm remotem ∧ k ∈ statusDiffering localm remotem) ∧
    ¬ (k ∈ statusMatching localm remotem ∧ k ∈ statusOnlyLocal localm remotem) ∧
    ¬ (k ∈ statusMatching localm remotem ∧ k ∈ statusOnlyRemote localm remotem) ∧
    ¬ (k ∈ statusDiffering localm remotem ∧ k ∈ statusOnlyLocal localm remotem) ∧
    ¬ (k ∈ statusDiffering localm remotem ∧ k ∈ statusOnlyRemote localm remotem) ∧
    ¬ (k ∈ statusOnlyLocal localm remotem ∧ k ∈ statusOnlyRemote localm remotem) := by
  simp only [statusMatching, statusDiffering, statusInBoth, statusOnlyLocal,
    statusOnlyRemote, List.mem_filter, contains_eq_decide_mem]
  by_cases hl : k ∈ keysOf localm <;>
    by_cases hr : k ∈ keysOf remotem <;>
    by_cases hv : alookup remotem k = alookup localm k <;>
    simp [hl, hr, hv]

/-! ### Pull command output (src/commands/pull/mod.rs, lines 44-53)

```rust
let mut content = String::new();
content.push_str(&format!("# Secrets from Bitwarden project: {}\n", proj.name));
content.push_str(&format!("# Project ID: {}\n\n", proj.id));
for (key, value) in secrets_map.iter() {
    content.push_str(&format!("{}={}\n", key, value));
}
```

The iteration is over a `HashMap`, so the entry lines appear in the map's
iteration order (modelled by the association-list order), not sorted.
-/

/-- The `.env` text built by `pull::execute`. -/
def pullContent (name pid : String) (secretsMap : List (String × String)) : String :=
  ("# Secrets from Bitwarden project: " ++ name ++ "\n") ++
  ("# Project ID: " ++ pid ++ "\n\n") ++
  secretsMap.foldl (fun acc p => acc ++ (p.1 ++ "=" ++ p.2 ++ "\n")) ""

/-- Strict lexicographic order on character lists (used only to state the
spec's "ascending lexicographic by key" requirement). -/
def charListLt : List Char → List Char → Bool
  | [], [] => false
  | [], _ :: _ => true
  | _ :: _, [] => false
  | a :: as, b :: bs => if a < b then true else if b < a then false else charListLt as bs

/-- Insert an entry into a key-sorted list (helper for `sortByKey`). -/
def ordInsertByKey (p : String × String) :
    List (String × String) → List (String × String)
  | [] => [p]
  | q :: rest =>
    if charListLt p.1.data q.1.data then p :: q :: rest else q :: ordInsertByKey p rest

/-- Sort entries ascending lexicographically by key (used only to state the
spec's claimed output order; the code itself never sorts). -/
def sortByKey (m : List (String × String)) : List (String × String) :=
  m.foldr ordInsertByKey []

/-- Modelled from the spec (claim C2's required shape): the output's lines
are a non-empty block of `'#'`-prefixed header lines, then a blank line,
then one `KEY=VALUE` line per entry sorted ascending by key.  The header
block is recovered as the maximal `'#'`-prefixed prefix of the line list,
which is exactly the header block whenever the claimed shape holds, since
the blank line that follows it is not `'#'`-prefixed. -/
def pullClaimShape (text : String) (m : List (String × String)) : Bool :=
  let ls := rustLines text
  let hs := ls.takeWhile (fun l => startsWithChar l '#')
  !hs.isEmpty && ls == hs ++ [""] ++ (sortByKey m).map (fun p => p.1 ++ "=" ++ p.2)

theorem splitOnChar_append_sep (c : Char) (a r : List Char) (h : c ∉ a) :
    splitOnChar c (a ++ c :: r) = a :: splitOnChar c r := by
  induction a with
  | nil => simp [splitOnChar]
  | cons x xs ih =>
      have hx : ¬ (x = c) := fun he => h (he ▸ List.mem_cons_self x xs)
      have hxs : c ∉ xs := fun hm => h (List.mem_cons_of_mem x hm)
      have hr := ih hxs
      simp only [List.cons_append, splitOnChar, List.append_eq]
      rw [hr]
      simp [hx]

theorem stripCR_of_not_mem (l : List Char) (h : '\r' ∉ l) : stripCR l = l := by
  rw [stripCR, if_neg]
  intro hg
  obtain ⟨hne, heq⟩ := List.mem_getLast?_eq_getLast (Option.mem_def.mpr hg)
  exact h (by rw [heq]; exact List.getLast_mem hne)

theorem rustLines_terminated (s : String) (ls : List (List Char))
    (hsplit : splitOnChar '\n' s.data = ls ++ [[]])
    (hcr : ∀ x ∈ ls, '\r' ∉ x) :
    rustLines s = ls.map String.mk := by
  simp only [rustLines, hsplit, List.getLast?_concat, List.dropLast_concat, if_pos]
  rw [List.map_congr_left (fun x hx => stripCR_of_not_mem x (hcr x hx))]
  simp

theorem startsWithChar_append_left (s t : String) (c : Char)
    (h : startsWithChar s c = true) : startsWithChar (s ++ t) c = true := by
  rw [startsWithChar] at h ⊢
  rw [String.data_append]
  cases hs : s.data with
  | nil => rw [hs] at h; simp at h
  | cons a as => rw [hs] at h; simpa using h

theorem entry_foldl_append (m : List (String × String)) (s : String) :
    m.foldl (fun acc p => acc ++ (p.1 ++ "=" ++ p.2 ++ "\n")) s =
      s ++ m.foldl (fun acc p => acc ++ (p.1 ++ "=" ++ p.2 ++ "\n")) "" := by
  induction m generalizing s with
  | nil => simp [String.append_empty]
  | cons p rest ih =>
      simp only [List.foldl_cons]
      rw [ih (s ++ _), ih ("" ++ _), String.empty_append, String.append_assoc]

theorem splitOnChar_entries (m : List (String × String))
    (hm : ∀ p ∈ m, '\n' ∉ p.1.data ∧ '\n' ∉ p.2.data) :
    splitOnChar '\n'
        (m.foldl (fun acc p => acc ++ (p.1 ++ "=" ++ p.2 ++ "\n")) "").data =
      (m.map (fun p => (p.1 ++ "=" ++ p.2).data)) ++ [[]] := by
  induction m with
  | nil => simp [splitOnChar]
  | cons p rest ih =>
      have hp := hm p (List.mem_cons_self p rest)
      have hrest : ∀ q ∈ rest, '\n' ∉ q.1.data ∧ '\n' ∉ q.2.data :=
        fun q hq => hm q (List.mem_cons_of_mem p hq)
      have hna : '\n' ∉ (p.1 ++ "=" ++ p.2).data := by
        simp only [String.data_append, List.mem_append]
        rintro ((h1 | h2) | h3)
        · exact hp.1 h1
        · simp at h2
        · exact hp.2 h3
      simp only [List.foldl_cons, String.empty_append]
      rw [entry_foldl_append]
      have hdata : ((p.1 ++ "=" ++ p.2 ++ "\n") ++
          rest.foldl (fun acc p => acc ++ (p.1 ++ "=" ++ p.2 ++ "\n")) "").data =
          (p.1 ++ "=" ++ p.2).data ++ '\n' ::
            (rest.foldl (fun acc p => acc ++ (p.1 ++ "=" ++ p.2 ++ "\n")) "").data := by
        simp [String.data_append, List.append_assoc]
      rw [hdata, splitOnChar_append_sep '\n' _ _ hna, ih hrest]
      simp

/-- C2 (amended): for every mapping whose keys and values are free of
newline and carriage-return characters (and a similarly clean project name
and id), the text written by the pull path splits into two `'#'`-prefixed
header lines, a blank line, and exactly one `KEY=VALUE` line per entry of
the mapping — in the mapping's iteration order, which is not sorted by
key. -/
theorem pull_output_shape (name pid : String) (m : List (String × String))
    (_hne : m ≠ [])
    (hname : '\n' ∉ name.data ∧ '\r' ∉ name.data)
    (hpid : '\n' ∉ pid.data ∧ '\r' ∉ pid.data)
    (hm : ∀ p ∈ m, ('\n' ∉ p.1.data ∧ '\r' ∉ p.1.data) ∧
                   ('\n' ∉ p.2.data ∧ '\r' ∉ p.2.data)) :
    rustLines (pullContent name pid m) =
      ("# Secrets from Bitwarden project: " ++ name) ::
        ("# Project ID: " ++ pid) :: "" :: m.map (fun p => p.1 ++ "=" ++ p.2) ∧
    startsWithChar ("# Secrets from Bitwarden project: " ++ name) '#' = true ∧
    startsWithChar ("# Project ID: " ++ pid) '#' = true := by
  refine ⟨?_, startsWithChar_append_left _ _ _ (by decide),
    startsWithChar_append_left _ _ _ (by decide)⟩
  have hd : (pullContent name pid m).data =
      ("# Secrets from Bitwarden project: " ++ name).data ++ '\n' ::
        (("# Project ID: " ++ pid).data ++ '\n' :: '\n' ::
          (m.foldl (fun acc p => acc ++ (p.1 ++ "=" ++ p.2 ++ "\n")) "").data) := by
    rw [pullContent]
    simp [String.data_append, List.append_assoc]
  have h1 : '\n' ∉ ("# Secrets from Bitwarden project: " ++ name).data := by
    rw [String.data_append]
    intro hmem
    rcases List.mem_append.mp hmem with h | h
    · revert h; decide
    · exact hname.1 h
  have h2 : '\n' ∉ ("# Project ID: " ++ pid).data := by
    rw [String.data_append]
    intro hmem
    rcases List.mem_append.mp hmem with h | h
    · revert h; decide
    · exact hpid.1 h
  have hsplit2 : splitOnChar '\n' (pullContent name pid m).data =
      (("# Secrets from Bitwarden project: " ++ name).data ::
        ("# Project ID: " ++ pid).data :: [] ::
          m.map (fun p => (p.1 ++ "=" ++ p.2).data)) ++ [[]] := by
    have hsep : splitOnChar '\n'
        ('\n' :: (m.foldl (fun acc p => acc ++ (p.1 ++ "=" ++ p.2 ++ "\n")) "").data) =
        [] :: splitOnChar '\n'
          (m.foldl (fun acc p => acc ++ (p.1 ++ "=" ++ p.2 ++ "\n")) "").data :=
      splitOnChar_append_sep '\n' [] _ (by simp)
    rw [hd, splitOnChar_append_sep '\n' _ _ h1, splitOnChar_append_sep '\n' _ _ h2,
      hsep, splitOnChar_entries m (fun p hp => ⟨(hm p hp).1.1, (hm p hp).2.1⟩)]
    simp
  rw [rustLines_terminated _ _ hsplit2 ?_]
  · simp only [List.map_cons, List.map_map]
    refine congrArg₂ _ rfl (congrArg₂ _ rfl (congrArg₂ _ rfl ?_))
    exact List.map_congr_left fun p hp => rfl
  · intro x hx
    simp only [List.mem_cons] at hx
    rcases hx with h | h | h | h
    · subst h
      rw [String.data_append]
      intro hmem
      rcases List.mem_append.mp hmem with h | h
      · revert h; decide
      · exact hname.2 h
    · subst h
      rw [String.data_append]
      intro hmem
      rcases List.mem_append.mp hmem with h | h
      · revert h; decide
      · exact hpid.2 h
    · subst h; simp
    · rcases List.mem_map.mp h with ⟨p, hp, hpe⟩
      subst hpe
      simp only [String.data_append, List.mem_append]
      rintro ((h1 | h2) | h3)
      · exact (hm p hp).1.2 h1
      · revert h2; decide
      · exact (hm p hp).2.2 h3

/-- Witness for the amended C2 theorem at a concrete unordered mapping. -/
theorem pull_output_shape_witness :
    rustLines (pullContent "p" "i" [("B", "1"), ("A", "2")]) =
      ("# Secrets from Bitwarden project: " ++ "p") ::
        ("# Project ID: " ++ "i") :: "" ::
        [("B", "1"), ("A", "2")].map (fun p => p.1 ++ "=" ++ p.2) ∧
    startsWithChar ("# Secrets from Bitwarden project: " ++ "p") '#' = true ∧
    startsWithChar ("# Project ID: " ++ "i") '#' = true :=
  pull_output_shape "p" "i" [("B", "1"), ("A", "2")] (by decide)
    (by constructor <;> decide) (by constructor <;> decide)
    (by decide)

/-- C2 counterexample: for the mapping with iteration order
`[("B", "1"), ("A", "2")]`, the pull path writes the entry line `B=1`
before `A=2`, so the entry lines are not ascending by key and the claimed
shape is violated at this input. -/
theorem pull_output_not_sorted_counterexample :
    rustLines (pullContent "p" "i" [("B", "1"), ("A", "2")]) =
      ["# Secrets from Bitwarden project: p", "# Project ID: i", "", "B=1", "A=2"] ∧
    (sortByKey [("B", "1"), ("A", "2")]).map (fun p => p.1 ++ "=" ++ p.2) =
      ["A=2", "B=1"] ∧
    pullClaimShape (pullContent "p" "i" [("B", "1"), ("A", "2")])
      [("B", "1"), ("A", "2")] = false := by
  refine ⟨by decide, by decide, by decide⟩

/-! ### Validation of env-file text

`src/commands/validate/mod.rs` calls `parser::validate_env_file`.  The
module `src/env/parser.rs` itself is not among the provided sources (only
its re-export in `src/env/mod.rs`, its callers, and its tests are), so the
validator is modelled from the spec below.
-/

/-- The validator's structural error, identifying the offending 1-based
line. -/
inductive FormatError where
  | missingEquals (line : Nat)
  | emptyKey (line : Nat)
deriving DecidableEq

/-- Modelled from the spec: a line is ignorable if, after trimming
leading/trailing whitespace, it is empty or starts with `'#'`. -/
def ignorableLine (line : String) : Bool :=
  match trimChars line.data with
  | [] => true
  | c :: _ => c = '#'

/-- Whether the line contains at least one `'='`. -/
def hasEqChar (line : String) : Bool := line.data.contains '='

/-- The trimmed key portion of a line: the text before the first `'='`,
trimmed of surrounding whitespace. -/
def keyBeforeEq (line : String) : List Char :=
  trimChars (line.data.takeWhile (fun c => c ≠ '='))

/-- Modelled from the spec: validation scans lines in order (1-based
numbering); an entry line with no `'='` fails with `MissingEquals`, one
with an empty trimmed key fails with `EmptyKey`; it is fail-fast. -/
def validateLinesFrom (i : Nat) : List String → Except FormatError Unit
  | [] => Except.ok ()
  | l :: rest =>
    if ignorableLine l then validateLinesFrom (i + 1) rest
    else if ¬ hasEqChar l then Except.error (FormatError.missingEquals i)
    else if (keyBeforeEq l).isEmpty then Except.error (FormatError.emptyKey i)
    else validateLinesFrom (i + 1) rest

/-- Modelled from the spec: `validate(text)`, the core of the missing
`parser::validate_env_file` (the command in src/commands/validate/mod.rs
wraps its error into `AppError::EnvFileFormatError`). -/
def validate_env_text (text : String) : Except FormatError Unit :=
  validateLinesFrom 1 (rustLines text)

theorem validateLinesFrom_ignorable_append (lead ls : List String) (i : Nat)
    (h : ∀ l ∈ lead, ignorableLine l = true) :
    validateLinesFrom i (lead ++ ls) = validateLinesFrom (i + lead.length) ls := by
  induction lead generalizing i with
  | nil => simp
  | cons l rest ih =>
      have hl : ignorableLine l = true := h l (List.mem_cons_self l rest)
      have hrest : ∀ x ∈ rest, ignorableLine x = true :=
        fun x hx => h x (List.mem_cons_of_mem l hx)
      show (if ignorableLine l then _ else _) = _
      rw [if_pos hl]
      simp only [List.append_eq]
      rw [ih (i + 1) hrest]
      congr 1
      simp only [List.length_cons]
      omega

/-- C4: if the first non-ignorable line of the text violates the format,
validation fails fast at that line — `MissingEquals` when it has no `'='`,
`EmptyKey` when the trimmed key before the first `'='` is empty — and a
text of only ignorable lines validates successfully. -/
theorem validate_fail_fast :
    (∀ (text : String) (lead : List String) (bad : String) (rest : List String),
      rustLines text = lead ++ bad :: rest →
      (∀ l ∈ lead, ignorableLine l = true) →
      ignorableLine bad = false →
      (hasEqChar bad = false →
        validate_env_text text = Except.error (FormatError.missingEquals (lead.length + 1))) ∧
      (hasEqChar bad = true → (keyBeforeEq bad).isEmpty = true →
        validate_env_text text = Except.error (FormatError.emptyKey (lead.length + 1)))) ∧
    (∀ text : String, (∀ l ∈ rustLines text, ignorableLine l = true) →
      validate_env_text text = Except.ok ()) := by
  constructor
  · intro text lead bad rest hsplit hlead hbad
    have hv : validate_env_text text = validateLinesFrom (lead.length + 1) (bad :: rest) := by
      rw [validate_env_text, hsplit, validateLinesFrom_ignorable_append lead _ 1 hlead,
        Nat.add_comm]
    constructor
    · intro hne
      rw [hv]
      show (if ignorableLine bad then _ else _) = _
      rw [if_neg (by simp [hbad]), if_pos (by simp [hne])]
    · intro heq hkey
      rw [hv]
      show (if ignorableLine bad then _ else _) = _
      rw [if_neg (by simp [hbad]), if_neg (by simp [heq]), if_pos hkey]
  · intro text hall
    rw [validate_env_text]
    have : ∀ (ls : List String) (i : Nat), (∀ l ∈ ls, ignorableLine l = true) →
        validateLinesFrom i ls = Except.ok () := by
      intro ls
      induction ls with
      | nil => intro i _; rfl
      | cons l rest ih =>
          intro i h
          show (if ignorableLine l then _ else _) = _
          rw [if_pos (h l (List.mem_cons_self l rest))]
          exact ih (i + 1) (fun x hx => h x (List.mem_cons_of_mem l hx))
    exact this _ 1 hall

/-- Witness for C4 at the spec's own examples: `"FOO\nBAR=1\n"` fails with
`MissingEquals` at line 1, `"=x\n"` fails with `EmptyKey` at line 1, and a
comments-and-blanks-only text validates. -/
theorem validate_fail_fast_witness :
    validate_env_text "FOO\nBAR=1\n" = Except.error (FormatError.missingEquals 1) ∧
    validate_env_text "=x\n" = Except.error (FormatError.emptyKey 1) ∧
    validate_env_text "# only a comment\n\n" = Except.ok () := by
  refine ⟨?_, ?_, ?_⟩
  · exact (validate_fail_fast.1 "FOO\nBAR=1\n" [] "FOO" ["BAR=1"]
      (by decide) (by decide) (by decide)).1 (by decide)
  · exact (validate_fail_fast.1 "=x\n" [] "=x" []
      (by decide) (by decide) (by decide)).2 (by decide) (by decide)
  · exact validate_fail_fast.2 "# only a comment\n\n" (by decide)

/-! ### Provider data model and the in-memory mock provider

`Project` and `Secret` are from src/bitwarden/provider.rs; the state and
the primitive operations are from src/bitwarden/mock_provider.rs.  The two
`HashMap`s of `MockState` (keyed by project id and secret id) are modelled
as lists in iteration order; distinctness of ids is an invariant of the
`HashMap` representation and appears below as a hypothesis where needed.
-/

/-- The subset of `AppError` (src/error/types.rs) constructed by the code
modelled here. -/
inductive AppError where
  | EnvFileReadError (msg : String)
  | EnvFileWriteError (msg : String)
  | EnvFileFormatError (msg : String)
  | ItemNotFound (msg : String)
  | InvalidArguments (msg : String)
deriving DecidableEq

structure Project where
  id : String
  name : String
  organization_id : String
deriving DecidableEq

structure Secret where
  id : String
  key : String
  value : String
  note : Option String
  project_id : String
deriving DecidableEq

structure MockState where
  projects : List Project
  secrets : List Secret
  next_secret_id : Nat
deriving DecidableEq

/-- `HashMap<String, Secret>::insert(secret.id, secret)`: replace the entry
with the same id in place, or append a new one. -/
def insertById : List Secret → Secret → List Secret
  | [], s => [s]
  | x :: rest, s => if x.id = s.id then s :: rest else x :: insertById rest s

/-- `get_project`: lookup of `state.projects` by project id. -/
def get_project (st : MockState) (pid : String) : Option Project :=
  st.projects.find? (fun p => p.id == pid)

/-- `get_project_by_name`: first project (in iteration order) with the
given name. -/
def get_project_by_name (st : MockState) (name : String) : Option Project :=
  st.projects.find? (fun p => p.name == name)

/-- `list_secrets`: all secrets of the project, in iteration order. -/
def list_secrets (st : MockState) (pid : String) : List Secret :=
  st.secrets.filter (fun s => s.project_id == pid)

/-- `get_secrets_map` (default method in src/bitwarden/provider.rs):
collect the listed secrets into a key-to-value map. -/
def get_secrets_map (st : MockState) (pid : String) : List (String × String) :=
  foldInsert [] ((list_secrets st pid).map (fun s => (s.key, s.value)))

/-- The id minted by the mock for the `n`-th created secret:
`format!("mock_secret_{}", n)`. -/
def mkSecretId (n : Nat) : String := "mock_secret_" ++ Nat.repr n

/-- `create_secret` of the mock provider: fails if the project is missing
or a secret with the same key already exists in it; otherwise inserts a
fresh secret and advances the id counter. -/
def create_secret (st : MockState) (pid key value : String) (note : Option String) :
    Except AppError (Secret × MockState) :=
  if ¬ st.projects.any (fun p => p.id == pid) then
    Except.error (AppError.ItemNotFound ("Project not found: " ++ pid))
  else if st.secrets.any (fun s => s.project_id == pid && s.key == key) then
    Except.error (AppError.InvalidArguments
      ("Secret with key '" ++ key ++ "' already exists in project"))
  else
    let s : Secret := ⟨mkSecretId st.next_secret_id, key, value, note, pid⟩
    Except.ok (s, ⟨st.projects, insertById st.secrets s, st.next_secret_id + 1⟩)

/-- `update_secret` of the mock provider: fails if the id is absent, or if
the key changes onto another secret's key in the same project; otherwise
replaces the secret with that id. -/
def update_secret (st : MockState) (sid key value : String) (note : Option String) :
    Except AppError (Secret × MockState) :=
  match st.secrets.find? (fun s => s.id == sid) with
  | none => Except.error (AppError.ItemNotFound ("Secret not found: " ++ sid))
  | some existing =>
    if key ≠ existing.key ∧
        st.secrets.any (fun s =>
          s.id != sid && s.project_id == existing.project_id && s.key == key) then
      Except.error (AppError.InvalidArguments
        ("Secret with key '" ++ key ++ "' already exists in project"))
    else
      let updated : Secret := ⟨sid, key, value, note, existing.project_id⟩
      Except.ok (updated, ⟨st.projects, insertById st.secrets updated, st.next_secret_id⟩)

/-! ### The pull command (src/commands/pull/mod.rs)

The surrounding effects are made explicit: the provider calls issued, and
the content written to the output file (`none` when nothing is written).
`fs::write` itself is assumed to succeed; the early-exit behaviour under
scrutiny here happens before any file or provider interaction.
-/

/-- A provider call issued by `pull::execute`. -/
inductive ProvCall where
  | getProjectCall (pid : String)
  | getProjectByNameCall (name : String)
  | getSecretsMapCall (pid : String)
deriving DecidableEq

/-- `pull::execute`: refuse to touch an existing output file without
`force`; resolve the project by id then by name; read the secrets map; do
not write anything when it is empty; otherwise write the formatted
content. -/
def pull_execute (st : MockState) (project output : String)
    (outputExists force : Bool) :
    Except AppError Unit × List ProvCall × Option String :=
  if outputExists && !force then
    (Except.error (AppError.EnvFileWriteError
      ("File " ++ output ++ " already exists. Use --force to overwrite")), [], none)
  else
    let afterProj : Project × List ProvCall →
        Except AppError Unit × List ProvCall × Option String := fun pc =>
      let sm := get_secrets_map st pc.1.id
      let calls := pc.2 ++ [ProvCall.getSecretsMapCall pc.1.id]
      if sm.isEmpty then (Except.ok (), calls, none)
      else (Except.ok (), calls, some (pullContent pc.1.name pc.1.id sm))
    match get_project st project with
    | some proj => afterProj (proj, [ProvCall.getProjectCall project])
    | none =>
      match get_project_by_name st project with
      | some proj => afterProj (proj,
          [ProvCall.getProjectCall project, ProvCall.getProjectByNameCall project])
      | none => (Except.error (AppError.ItemNotFound ("Project: " ++ project)),
          [ProvCall.getProjectCall project, ProvCall.getProjectByNameCall project], none)

/-- C10: when the output file exists and `force` is false, pull returns an
`EnvFileWriteError` having issued no provider call and without writing
anything (the existing file is untouched). -/
theorem pull_exists_no_force (st : MockState) (project output : String) :
    pull_execute st project output true false =
      (Except.error (AppError.EnvFileWriteError
        ("File " ++ output ++ " already exists. Use --force to overwrite")),
       [], none) := rfl

/-! ### `sync_secrets` (default method in src/bitwarden/provider.rs)

```rust
let existing = self.list_secrets(project_id).await?;
let mut existing_map: HashMap<String, Secret> =
    existing.into_iter().map(|s| (s.key.clone(), s)).collect();
let mut results = Vec::new();
for (key, value) in secrets {
    if let Some(existing_secret) = existing_map.remove(key) {
        if overwrite {
            let updated = self.update_secret(&existing_secret.id, key, value,
                existing_secret.note.as_deref()).await?;
            results.push(updated);
        } else {
            results.push(existing_secret);
        }
    } else {
        let created = self.create_secret(project_id, key, value, None).await?;
        results.push(created);
    }
}
Ok(results)
```

The algorithm is modelled against the mock provider's primitives, with an
explicit trace of the create/update calls it issues.  `?` propagates the
first failing call; the mock mutates no state on a failing call, and the
state reached so far is returned alongside the error.
-/

/-- A remote write issued by `sync_secrets`. -/
inductive SyncEvent where
  | createEv (key value : String)
  | updateEv (sid key value : String)
deriving DecidableEq

/-- `HashMap::remove(key)`: drop the entry with the given key. -/
def removeKey {β : Type} : List (String × β) → String → List (String × β)
  | [], _ => []
  | p :: rest, k => if p.1 = k then rest else p :: removeKey rest k

/-- One iteration of the `sync_secrets` loop: result pushed onto the
result list, state after the iteration, calls issued, and the remaining
key index. -/
def sync_step (st : MockState) (pid : String) (overwrite : Bool)
    (emap : List (String × Secret)) (kv : String × String) :
    Except AppError Secret × MockState × List SyncEvent × List (String × Secret) :=
  match alookup emap kv.1 with
  | some existing =>
      if overwrite then
        match update_secret st existing.id kv.1 kv.2 existing.note with
        | Except.ok (u, st') =>
            (Except.ok u, st', [SyncEvent.updateEv existing.id kv.1 kv.2],
             removeKey emap kv.1)
        | Except.error e =>
            (Except.error e, st, [SyncEvent.updateEv existing.id kv.1 kv.2],
             removeKey emap kv.1)
      else (Except.ok existing, st, [], removeKey emap kv.1)
  | none =>
      match create_secret st pid kv.1 kv.2 none with
      | Except.ok (s, st') => (Except.ok s, st', [SyncEvent.createEv kv.1 kv.2], emap)
      | Except.error e => (Except.error e, st, [SyncEvent.createEv kv.1 kv.2], emap)

/-- The `sync_secrets` loop over the desired entries, threading the state,
the key index, the result list, and the trace of issued calls.  The final
key index is returned too (it is internal loop state, exposed only so that
partial runs can be described). -/
def sync_loop (pid : String) (overwrite : Bool) :
    MockState → List (String × Secret) → List Secret → List (String × String) →
    Except AppError (List Secret) × MockState × List SyncEvent × List (String × Secret)
  | st, emap, results, [] => (Except.ok results, st, [], emap)
  | st, emap, results, kv :: rest =>
    match sync_step st pid overwrite emap kv with
    | (Except.ok r, st', evs, emap') =>
        let out := sync_loop pid overwrite st' emap' (results ++ [r]) rest
        (out.1, out.2.1, evs ++ out.2.2.1, out.2.2.2)
    | (Except.error e, st', evs, emap') => (Except.error e, st', evs, emap')

/-- The key index built at the start of `sync_secrets`: the listed secrets
collected by key into a `HashMap` (a later duplicate key overwrites an
earlier one). -/
def syncIndex (st : MockState) (pid : String) : List (String × Secret) :=
  foldInsert [] ((list_secrets st pid).map (fun s => (s.key, s)))

/-- `sync_secrets`: index the project's secrets by key, then process each
desired entry in iteration order. -/
def sync_secrets (st : MockState) (pid : String) (desired : List (String × String))
    (overwrite : Bool) :
    Except AppError (List Secret) × MockState × List SyncEvent × List (String × Secret) :=
  sync_loop pid overwrite st (syncIndex st pid) [] desired

/-! ### Injectivity of `Nat.repr`

The mock provider mints secret ids `format!("mock_secret_{}", n)`; the
invariants below need distinct counters to yield distinct ids.
-/

theorem toDigitsCore_accumulator (b fuel : Nat) : ∀ (n : Nat) (l : List Char),
    Nat.toDigitsCore b fuel n l = Nat.toDigitsCore b fuel n [] ++ l := by
  induction fuel with
  | zero => intro n l; simp [Nat.toDigitsCore]
  | succ f ih =>
      intro n l
      simp only [Nat.toDigitsCore]
      by_cases h : n / b = 0
      · simp [h]
      · rw [if_neg h, if_neg h, ih (n / b) [Nat.digitChar (n % b)],
          ih (n / b) (Nat.digitChar (n % b) :: l), List.append_assoc,
          List.singleton_append]

/-- The numeric value of a decimal digit character. -/
def decDigit (c : Char) : Nat := c.toNat - 48

/-- Reads a digit string back into the number it denotes. -/
def decodeDigits (l : List Char) : Nat := l.foldl (fun a c => 10 * a + decDigit c) 0

theorem decDigit_digitChar (d : Nat) (h : d < 10) :
    decDigit (Nat.digitChar d) = d := by
  interval_cases d <;> decide

theorem decodeDigits_concat (l : List Char) (c : Char) :
    decodeDigits (l ++ [c]) = 10 * decodeDigits l + decDigit c := by
  simp [decodeDigits, List.foldl_append]

theorem decode_toDigitsCore (fuel : Nat) : ∀ n : Nat, n < fuel →
    decodeDigits (Nat.toDigitsCore 10 fuel n []) = n := by
  induction fuel with
  | zero => intro n h; omega
  | succ f ih =>
      intro n h
      simp only [Nat.toDigitsCore]
      by_cases h0 : n / 10 = 0
      · rw [if_pos h0]
        have hn : n < 10 := by omega
        have : decodeDigits [Nat.digitChar (n % 10)] = n % 10 := by
          simp [decodeDigits, decDigit_digitChar (n % 10) (Nat.mod_lt n (by omega))]
        rw [this, Nat.mod_eq_of_lt hn]
      · rw [if_neg h0, toDigitsCore_accumulator, decodeDigits_concat,
          decDigit_digitChar (n % 10) (Nat.mod_lt n (by omega)),
          ih (n / 10) (by omega)]
        exact Nat.div_add_mod n 10

theorem nat_repr_inj (m n : Nat) (h : Nat.repr m = Nat.repr n) : m = n := by
  have hdig : Nat.toDigitsCore 10 (m + 1) m [] = Nat.toDigitsCore 10 (n + 1) n [] :=
    congrArg String.data h
  have hm := decode_toDigitsCore (m + 1) m (Nat.lt_succ_self m)
  have hn := decode_toDigitsCore (n + 1) n (Nat.lt_succ_self n)
  calc m = decodeDigits (Nat.toDigitsCore 10 (m + 1) m []) := hm.symm
    _ = decodeDigits (Nat.toDigitsCore 10 (n + 1) n []) := by rw [hdig]
    _ = n := hn

theorem mkSecretId_inj (m n : Nat) (h : mkSecretId m = mkSecretId n) : m = n := by
  apply nat_repr_inj
  have hd := congrArg String.data h
  simp only [mkSecretId, String.data_append] at hd
  have := List.append_cancel_left hd
  exact congrArg String.mk this

/-! ### Supporting lemmas about the association-list and mock operations -/

theorem mem_insertEntry {β : Type} (l : List (String × β)) (k : String) (v : β)
    (q : String × β) (h : q ∈ insertEntry l k v) : q ∈ l ∨ q = (k, v) := by
  induction l with
  | nil => simpa [insertEntry] using h
  | cons p rest ih =>
      by_cases hp : p.1 = k
      · rw [insertEntry, if_pos hp] at h
        rcases List.mem_cons.mp h with h | h
        · exact Or.inr h
        · exact Or.inl (List.mem_cons_of_mem p h)
      · rw [insertEntry, if_neg hp] at h
        rcases List.mem_cons.mp h with h | h
        · exact Or.inl (h ▸ List.mem_cons_self p rest)
        · rcases ih h with h | h
          · exact Or.inl (List.mem_cons_of_mem p h)
          · exact Or.inr h

theorem mem_foldInsert {β : Type} (ps : List (String × β)) (acc : List (String × β))
    (q : String × β) (h : q ∈ foldInsert acc ps) : q ∈ acc ∨ q ∈ ps := by
  induction ps generalizing acc with
  | nil => exact Or.inl h
  | cons p rest ih =>
      rcases ih (insertEntry acc p.1 p.2) h with h | h
      · rcases mem_insertEntry acc p.1 p.2 q h with h | h
        · exact Or.inl h
        · exact Or.inr (h ▸ (by simp : (p.1, p.2) ∈ p :: rest))
      · exact Or.inr (List.mem_cons_of_mem p h)

theorem alookup_mem {β : Type} (l : List (String × β)) (k : String) (v : β)
    (h : alookup l k = some v) : (k, v) ∈ l := by
  induction l with
  | nil => simp [alookup] at h
  | cons p rest ih =>
      by_cases hp : p.1 = k
      · rw [alookup, if_pos hp] at h
        injection h with h
        have : (k, v) = p := by rw [← hp, ← h]
        exact this ▸ List.mem_cons_self p rest
      · rw [alookup, if_neg hp] at h
        exact List.mem_cons_of_mem p (ih h)

theorem mem_removeKey {β : Type} (l : List (String × β)) (k : String)
    (q : String × β) (h : q ∈ removeKey l k) : q ∈ l := by
  induction l with
  | nil => simpa [removeKey] using h
  | cons p rest ih =>
      by_cases hp : p.1 = k
      · rw [removeKey, if_pos hp] at h
        exact List.mem_cons_of_mem p h
      · rw [removeKey, if_neg hp] at h
        rcases List.mem_cons.mp h with h | h
        · exact h ▸ List.mem_cons_self p rest
        · exact List.mem_cons_of_mem p (ih h)

theorem mem_keysOf_removeKey {β : Type} (l : List (String × β)) (k k' : String)
    (h : k' ∈ keysOf l) (hne : k' ≠ k) : k' ∈ keysOf (removeKey l k) := by
  induction l with
  | nil => simpa [keysOf] using h
  | cons p rest ih =>
      by_cases hp : p.1 = k
      · rw [removeKey, if_pos hp]
        rcases List.mem_cons.mp h with h | h
        · exact absurd (h.trans hp) hne
        · exact h
      · rw [removeKey, if_neg hp]
        rcases List.mem_cons.mp h with h | h
        · exact h ▸ List.mem_cons_self p.1 _
        · exact List.mem_cons_of_mem p.1 (ih h)

theorem keysOf_mem_of_removeKey {β : Type} (l : List (String × β)) (k k' : String)
    (h : k' ∈ keysOf (removeKey l k)) : k' ∈ keysOf l := by
  rcases List.mem_map.mp h with ⟨q, hq, hqe⟩
  exact hqe ▸ List.mem_map_of_mem Prod.fst (mem_removeKey l k q hq)

theorem mem_insertById_of_ne (l : List Secret) (u s : Secret)
    (hs : s ∈ l) (hne : s.id ≠ u.id) : s ∈ insertById l u := by
  induction l with
  | nil => simp at hs
  | cons x rest ih =>
      by_cases hx : x.id = u.id
      · rw [insertById, if_pos hx]
        rcases List.mem_cons.mp hs with h | h
        · exact absurd (h ▸ hx) hne
        · exact List.mem_cons_of_mem u h
      · rw [insertById, if_neg hx]
        rcases List.mem_cons.mp hs with h | h
        · exact h ▸ List.mem_cons_self x _
        · exact List.mem_cons_of_mem x (ih h)

theorem mem_insertById (l : List Secret) (u q : Secret)
    (h : q ∈ insertById l u) : q ∈ l ∨ q = u := by
  induction l with
  | nil => simpa [insertById] using h
  | cons x rest ih =>
      by_cases hx : x.id = u.id
      · rw [insertById, if_pos hx] at h
        rcases List.mem_cons.mp h with h | h
        · exact Or.inr h
        · exact Or.inl (List.mem_cons_of_mem x h)
      · rw [insertById, if_neg hx] at h
        rcases List.mem_cons.mp h with h | h
        · exact Or.inl (h ▸ List.mem_cons_self x rest)
        · rcases ih h with h | h
          · exact Or.inl (List.mem_cons_of_mem x h)
          · exact Or.inr h

theorem insertById_append_fresh (l₁ l₂ : List Secret) (u : Secret)
    (h : ∀ x ∈ l₁, x.id ≠ u.id) :
    insertById (l₁ ++ l₂) u = l₁ ++ insertById l₂ u := by
  induction l₁ with
  | nil => simp
  | cons x rest ih =>
      have hx : ¬ (x.id = u.id) := h x (List.mem_cons_self x rest)
      rw [List.cons_append, insertById, if_neg hx,
        ih (fun y hy => h y (List.mem_cons_of_mem x hy)), List.cons_append]

theorem create_secret_ok (st : MockState) (pid key value : String)
    (note : Option String) (s' : Secret) (st' : MockState)
    (h : create_secret st pid key value note = Except.ok (s', st')) :
    s' = ⟨mkSecretId st.next_secret_id, key, value, note, pid⟩ ∧
    st' = ⟨st.projects, insertById st.secrets s', st.next_secret_id + 1⟩ ∧
    st.projects.any (fun p => p.id == pid) = true ∧
    (∀ x ∈ st.secrets, ¬ (x.project_id = pid ∧ x.key = key)) := by
  rw [create_secret] at h
  by_cases h1 : st.projects.any (fun p => p.id == pid) = true
  · rw [if_neg (by simp [h1])] at h
    by_cases h2 : st.secrets.any (fun s => s.project_id == pid && s.key == key) = true
    · rw [if_pos h2] at h
      exact absurd h (by simp)
    · rw [if_neg h2] at h
      injection h with h
      injection h with he hst
      refine ⟨he.symm, hst.symm ▸ (by rw [he]), h1, ?_⟩
      intro x hx hcon
      exact h2 (List.any_eq_true.mpr ⟨x, hx, by
        simp [hcon.1, hcon.2]⟩)
  · rw [if_pos (by simpa using h1)] at h
    exact absurd h (by simp)

theorem update_secret_ok (st : MockState) (sid key value : String)
    (note : Option String) (u : Secret) (st' : MockState)
    (h : update_secret st sid key value note = Except.ok (u, st')) :
    ∃ existing, st.secrets.find? (fun s => s.id == sid) = some existing ∧
      u = ⟨sid, key, value, note, existing.project_id⟩ ∧
      st' = ⟨st.projects, insertById st.secrets u, st.next_secret_id⟩ := by
  rw [update_secret] at h
  split at h
  · exact absurd h (by simp)
  · rename_i existing heq
    split at h
    · exact absurd h (by simp)
    · injection h with h
      injection h with he hst
      exact ⟨existing, heq, he.symm, hst.symm.trans (by rw [he])⟩

/-- The key a sync event writes to. -/
def eventKey : SyncEvent → String
  | SyncEvent.createEv k _ => k
  | SyncEvent.updateEv _ k _ => k

theorem short_id_ne_mkSecretId (s : String) (hlen : s.length < 12) :
    ∀ n : Nat, s ≠ mkSecretId n := by
  intro n he
  have hl := congrArg String.length he
  rw [mkSecretId, String.length_append,
    show ("mock_secret_" : String).length = 12 from by decide] at hl
  omega

theorem sync_loop_frame (pid : String) (ow : Bool) (s : Secret) :
    ∀ (ds : List (String × String)) (st : MockState) (emap : List (String × Secret))
      (res : List Secret),
      s ∈ st.secrets →
      (∀ n, st.next_secret_id ≤ n → s.id ≠ mkSecretId n) →
      (∀ q ∈ emap, q.2.id = s.id → q.1 = s.key) →
      s.key ∉ ds.map Prod.fst →
      s ∈ (sync_loop pid ow st emap res ds).2.1.secrets ∧
      ∀ ev ∈ (sync_loop pid ow st emap res ds).2.2.1, eventKey ev ≠ s.key := by
  intro ds
  induction ds with
  | nil =>
      intro st emap res hs _ _ _
      exact ⟨hs, by simp [sync_loop]⟩
  | cons kv rest ih =>
      intro st emap res hs hfr hemap hkey
      have hkv : kv.1 ≠ s.key := by
        intro he
        apply hkey
        rw [← he]
        exact List.mem_map.mpr ⟨kv, List.mem_cons_self kv rest, rfl⟩
      have hkeyr : s.key ∉ rest.map Prod.fst := by
        intro h
        rcases List.mem_map.mp h with ⟨q, hq, hqe⟩
        exact hkey (List.mem_map.mpr ⟨q, List.mem_cons_of_mem kv hq, hqe⟩)
      have hemap' : ∀ q ∈ removeKey emap kv.1, q.2.id = s.id → q.1 = s.key :=
        fun q hq => hemap q (mem_removeKey emap kv.1 q hq)
      cases halk : alookup emap kv.1 with
      | none =>
          cases hc : create_secret st pid kv.1 kv.2 none with
          | error e =>
              simp only [sync_loop, sync_step, halk, hc]
              exact ⟨hs, by intro ev hev; simp at hev; rw [hev]; exact hkv⟩
          | ok pr =>
              obtain ⟨s', st'⟩ := pr
              obtain ⟨hs'e, hst'e, -, -⟩ := create_secret_ok st pid kv.1 kv.2 none s' st' hc
              have hsid : s.id ≠ s'.id := by
                rw [hs'e]
                exact hfr st.next_secret_id (le_refl _)
              have hmem' : s ∈ st'.secrets := by
                rw [hst'e]
                exact mem_insertById_of_ne st.secrets s' s hs hsid
              have hfr' : ∀ n, st'.next_secret_id ≤ n → s.id ≠ mkSecretId n := by
                rw [hst'e]
                exact fun n hn => hfr n (by simp at hn ⊢; omega)
              have hrec := ih st' emap (res ++ [s']) hmem' hfr' hemap hkeyr
              simp only [sync_loop, sync_step, halk, hc]
              refine ⟨hrec.1, ?_⟩
              intro ev hev
              simp only [List.cons_append, List.nil_append, List.mem_cons] at hev
              rcases hev with hev | hev
              · rw [hev]; exact hkv
              · exact hrec.2 ev hev
      | some existing =>
          have hexid : existing.id = s.id → False := by
            intro hid
            exact hkv (hemap (kv.1, existing) (alookup_mem emap kv.1 existing halk) hid)
          cases ow with
          | false =>
              have hrec := ih st (removeKey emap kv.1) (res ++ [existing])
                hs hfr hemap' hkeyr
              simpa [sync_loop, sync_step, halk] using hrec
          | true =>
              cases hu : update_secret st existing.id kv.1 kv.2 existing.note with
              | error e =>
                  simp only [sync_loop, sync_step, halk, if_pos, hu]
                  exact ⟨hs, by intro ev hev; simp at hev; rw [hev]; exact hkv⟩
              | ok pr =>
                  obtain ⟨u, st'⟩ := pr
                  obtain ⟨ex2, -, hue, hst'e⟩ :=
                    update_secret_ok st existing.id kv.1 kv.2 existing.note u st' hu
                  have hsid : s.id ≠ u.id := by
                    rw [hue]
                    intro he
                    exact hexid (by rw [← he])
                  have hmem' : s ∈ st'.secrets := by
                    rw [hst'e]
                    exact mem_insertById_of_ne st.secrets u s hs hsid
                  have hfr' : ∀ n, st'.next_secret_id ≤ n → s.id ≠ mkSecretId n := by
                    rw [hst'e]
                    exact fun n hn => hfr n hn
                  have hrec := ih st' (removeKey emap kv.1) (res ++ [u])
                    hmem' hfr' hemap' hkeyr
                  simp only [sync_loop, sync_step, halk, if_pos, hu]
                  refine ⟨hrec.1, ?_⟩
                  intro ev hev
                  simp only [List.cons_append, List.nil_append, List.mem_cons] at hev
                  rcases hev with hev | hev
                  · rw [hev]; exact hkv
                  · exact hrec.2 ev hev

/-- C1: for any remote state with well-formed (distinct, non-minted) secret
ids, a sync — with either value of `overwrite` — leaves every secret whose
key is absent from the desired mapping in place, record for record, and
issues no create or update call for its key. -/
theorem sync_secrets_never_touches_unlisted (st : MockState) (pid : String)
    (desired : List (String × String)) (ow : Bool) (s : Secret)
    (hids : (st.secrets.map Secret.id).Nodup)
    (hfresh : ∀ x ∈ st.secrets, ∀ n, st.next_secret_id ≤ n → x.id ≠ mkSecretId n)
    (hs : s ∈ st.secrets)
    (hkey : s.key ∉ desired.map Prod.fst) :
    s ∈ (sync_secrets st pid desired ow).2.1.secrets ∧
    ∀ ev ∈ (sync_secrets st pid desired ow).2.2.1, eventKey ev ≠ s.key := by
  apply sync_loop_frame pid ow s desired st (syncIndex st pid) [] hs (hfresh s hs) ?_ hkey
  intro q hq hqid
  rcases mem_foldInsert _ [] q hq with h | h
  · simp at h
  · rcases List.mem_map.mp h with ⟨x, hx, hxe⟩
    have hxs : x ∈ st.secrets := List.mem_of_mem_filter hx
    have hinj := List.inj_on_of_nodup_map hids
    have hxid : x.id = s.id := by rw [← hxe] at hqid; exact hqid
    have : x = s := hinj hxs hs hxid
    rw [← hxe]
    exact congrArg Secret.key this

/-- Witness for C1: a concrete remote state with a secret `KEEP` absent
from the desired mapping survives a sync untouched. -/
theorem sync_never_touches_unlisted_witness :
    (⟨"sec_1", "KEEP", "v0", none, "p"⟩ : Secret) ∈
      (sync_secrets
        ⟨[⟨"p", "proj", "org"⟩],
         [⟨"sec_1", "KEEP", "v0", none, "p"⟩, ⟨"sec_2", "K", "old", none, "p"⟩], 3⟩
        "p" [("K", "new")] true).2.1.secrets ∧
    ∀ ev ∈ (sync_secrets
        ⟨[⟨"p", "proj", "org"⟩],
         [⟨"sec_1", "KEEP", "v0", none, "p"⟩, ⟨"sec_2", "K", "old", none, "p"⟩], 3⟩
        "p" [("K", "new")] true).2.2.1, eventKey ev ≠ "KEEP" :=
  sync_secrets_never_touches_unlisted
    ⟨[⟨"p", "proj", "org"⟩],
     [⟨"sec_1", "KEEP", "v0", none, "p"⟩, ⟨"sec_2", "K", "old", none, "p"⟩], 3⟩
    "p" [("K", "new")] true ⟨"sec_1", "KEEP", "v0", none, "p"⟩
    (by decide)
    (by
      intro x hx n _
      have hxlen : x.id.length < 12 := by
        rcases List.mem_cons.mp hx with h | hx2
        · rw [h]; decide
        · rcases List.mem_cons.mp hx2 with h | h
          · rw [h]; decide
          · simp at h
      exact short_id_ne_mkSecretId x.id hxlen n)
    (by decide) (by decide)

theorem sync_step_error_state (st : MockState) (pid : String) (ow : Bool)
    (emap : List (String × Secret)) (kv : String × String) (e : AppError)
    (st₂ : MockState) (evs : List SyncEvent) (emap₂ : List (String × Secret))
    (h : sync_step st pid ow emap kv = (Except.error e, st₂, evs, emap₂)) :
    st₂ = st := by
  rw [sync_step] at h
  split at h
  · split at h
    · split at h
      · exact absurd (congrArg Prod.fst h) (by simp)
      · exact (congrArg (fun t => t.2.1) h).symm
    · exact absurd (congrArg Prod.fst h) (by simp)
  · split at h
    · exact absurd (congrArg Prod.fst h) (by simp)
    · exact (congrArg (fun t => t.2.1) h).symm

theorem sync_loop_append (pid : String) (ow : Bool) (ds₁ ds₂ : List (String × String)) :
    ∀ (st : MockState) (emap : List (String × Secret)) (res : List Secret),
    sync_loop pid ow st emap res (ds₁ ++ ds₂) =
      match sync_loop pid ow st emap res ds₁ with
      | (Except.ok rs, st', tr, emap') =>
          let out := sync_loop pid ow st' emap' rs ds₂
          (out.1, out.2.1, tr ++ out.2.2.1, out.2.2.2)
      | (Except.error e, st', tr, emap') => (Except.error e, st', tr, emap') := by
  induction ds₁ with
  | nil =>
      intro st emap res
      simp [sync_loop]
  | cons kv rest ih =>
      intro st emap res
      rcases hstep : sync_step st pid ow emap kv with ⟨r0, st0, evs0, emap0⟩
      cases r0 with
      | ok r =>
          have e1 : sync_loop pid ow st emap res ((kv :: rest) ++ ds₂) =
              (let out := sync_loop pid ow st0 emap0 (res ++ [r]) (rest ++ ds₂)
               (out.1, out.2.1, evs0 ++ out.2.2.1, out.2.2.2)) := by
            rw [List.cons_append]
            simp only [sync_loop, hstep]
          have e2 : sync_loop pid ow st emap res (kv :: rest) =
              (let out := sync_loop pid ow st0 emap0 (res ++ [r]) rest
               (out.1, out.2.1, evs0 ++ out.2.2.1, out.2.2.2)) := by
            simp only [sync_loop, hstep]
          rcases hrec : sync_loop pid ow st0 emap0 (res ++ [r]) rest with ⟨a, b, c, dd⟩
          rw [e1, e2, ih st0 emap0 (res ++ [r]), hrec]
          cases a with
          | ok rs => simp [List.append_assoc]
          | error e => simp
      | error e => simp [sync_loop, hstep]

/-- C8: if a create/update call issued by `sync_secrets` fails, the run
stops at that call — the trace is exactly the successful prefix's calls
followed by the failing one — the error is returned, the state keeps every
earlier create/update applied (it is the state reached by the successful
prefix), and the failing call itself left the state unchanged. -/
theorem sync_secrets_fail_fast (st : MockState) (pid : String) (ow : Bool)
    (ds₁ ds₂ : List (String × String)) (d : String × String)
    (rs : List Secret) (st₁ : MockState) (tr₁ : List SyncEvent)
    (emap₁ : List (String × Secret)) (e : AppError) (st₂ : MockState)
    (evs : List SyncEvent) (emap₂ : List (String × Secret))
    (hpre : sync_loop pid ow st (syncIndex st pid) [] ds₁ =
      (Except.ok rs, st₁, tr₁, emap₁))
    (hfail : sync_step st₁ pid ow emap₁ d = (Except.error e, st₂, evs, emap₂)) :
    sync_secrets st pid (ds₁ ++ d :: ds₂) ow =
      (Except.error e, st₁, tr₁ ++ evs, emap₂) ∧ st₂ = st₁ := by
  have hst := sync_step_error_state st₁ pid ow emap₁ d e st₂ evs emap₂ hfail
  constructor
  · rw [sync_secrets, sync_loop_append pid ow ds₁ (d :: ds₂), hpre]
    simp only [sync_loop, hfail, hst]
  · exact hst

/-- Witness for C8: with no project in the store, a sync of two keys where
the first updates an existing secret and the second must create fails at
the create; the update stays applied and no further call is made. -/
theorem sync_fail_fast_witness :
    sync_secrets ⟨[], [⟨"sec_1", "K1", "old", none, "p"⟩], 1⟩ "p"
        ([("K1", "v1")] ++ ("K2", "v2") :: []) true =
      (Except.error (AppError.ItemNotFound ("Project not found: " ++ "p")),
       ⟨[], [⟨"sec_1", "K1", "v1", none, "p"⟩], 1⟩,
       [SyncEvent.updateEv "sec_1" "K1" "v1"] ++ [SyncEvent.createEv "K2" "v2"],
       []) ∧
    (⟨[], [⟨"sec_1", "K1", "v1", none, "p"⟩], 1⟩ : MockState) =
      ⟨[], [⟨"sec_1", "K1", "v1", none, "p"⟩], 1⟩ :=
  sync_secrets_fail_fast ⟨[], [⟨"sec_1", "K1", "old", none, "p"⟩], 1⟩ "p" true
    [("K1", "v1")] [] ("K2", "v2")
    [⟨"sec_1", "K1", "v1", none, "p"⟩]
    ⟨[], [⟨"sec_1", "K1", "v1", none, "p"⟩], 1⟩
    [SyncEvent.updateEv "sec_1" "K1" "v1"] []
    (AppError.ItemNotFound ("Project not found: " ++ "p"))
    ⟨[], [⟨"sec_1", "K1", "v1", none, "p"⟩], 1⟩
    [SyncEvent.createEv "K2" "v2"] []
    rfl rfl

/-- The remote value observed for a key: lookup in the projection
`get_secrets_map`. -/
def projLookup (st : MockState) (pid k : String) : Option String :=
  alookup (get_secrets_map st pid) k

theorem projLookup_eq_lastFilter (st : MockState) (pid k : String) :
    projLookup st pid k =
      (((list_secrets st pid).filter (fun s => s.key = k)).getLast?).map
        Secret.value := by
  rw [projLookup, get_secrets_map, foldInsert_alookup, alookup_reverse_eq_lastFilter]
  have hfm : ((list_secrets st pid).map (fun s => (s.key, s.value))).filter
      (fun p => p.1 = k) =
      ((list_secrets st pid).filter (fun s => s.key = k)).map
        (fun s => (s.key, s.value)) := by
    rw [List.filter_map]
    rfl
  rw [hfm, List.getLast?_map]
  cases ((list_secrets st pid).filter (fun s => s.key = k)).getLast? with
  | none => simp [alookup]
  | some x => simp

theorem alookup_removeKey_ne {β : Type} (l : List (String × β)) (k k' : String)
    (h : k' ≠ k) : alookup (removeKey l k) k' = alookup l k' := by
  induction l with
  | nil => simp [removeKey]
  | cons p rest ih =>
      by_cases hp : p.1 = k
      · rw [removeKey, if_pos hp, alookup, if_neg (by rw [hp]; exact fun he => h he.symm)]
      · rw [removeKey, if_neg hp]
        by_cases hp' : p.1 = k'
        · rw [alookup, if_pos hp', alookup, if_pos hp']
        · rw [alookup, if_neg hp', alookup, if_neg hp', ih]

theorem keysOf_removeKey_nodup {β : Type} (l : List (String × β)) (k : String)
    (h : (keysOf l).Nodup) : (keysOf (removeKey l k)).Nodup := by
  induction l with
  | nil => simp [removeKey, keysOf]
  | cons p rest ih =>
      simp only [keysOf, List.map_cons, List.nodup_cons] at h
      by_cases hp : p.1 = k
      · rw [removeKey, if_pos hp]
        exact h.2
      · rw [removeKey, if_neg hp]
        simp only [keysOf, List.map_cons, List.nodup_cons]
        refine ⟨fun hm => h.1 (keysOf_mem_of_removeKey rest k p.1 hm), ih h.2⟩

theorem alookup_none_not_mem {β : Type} (l : List (String × β)) (k : String)
    (h : alookup l k = none) : k ∉ keysOf l := by
  induction l with
  | nil => simp [keysOf]
  | cons p rest ih =>
      by_cases hp : p.1 = k
      · rw [alookup, if_pos hp] at h
        exact absurd h (by simp)
      · rw [alookup, if_neg hp] at h
        simp only [keysOf, List.map_cons, List.mem_cons]
        rintro (he | he)
        · exact hp he.symm
        · exact ih h he

theorem mem_keysOf_alookup {β : Type} (l : List (String × β)) (k : String)
    (h : k ∈ keysOf l) : ∃ v, alookup l k = some v := by
  induction l with
  | nil => simp [keysOf] at h
  | cons p rest ih =>
      by_cases hp : p.1 = k
      · exact ⟨p.2, by rw [alookup, if_pos hp]⟩
      · have : k ∈ keysOf rest := by
          simp only [keysOf, List.map_cons, List.mem_cons] at h
          rcases h with h | h
          · exact absurd h.symm hp
          · exact h
        rcases ih this with ⟨v, hv⟩
        exact ⟨v, by rw [alookup, if_neg hp, hv]⟩

theorem insertById_fresh (l : List Secret) (u : Secret)
    (h : ∀ x ∈ l, x.id ≠ u.id) : insertById l u = l ++ [u] := by
  induction l with
  | nil => rfl
  | cons x rest ih =>
      rw [insertById, if_neg (h x (List.mem_cons_self x rest)),
        ih (fun y hy => h y (List.mem_cons_of_mem x hy)), List.cons_append]

theorem sync_loop_no_overwrite (pid : String) :
    ∀ (ds : List (String × String)) (st : MockState) (emap : List (String × Secret))
      (res : List Secret),
      (∀ x ∈ st.secrets, ∀ n, st.next_secret_id ≤ n → x.id ≠ mkSecretId n) →
      (ds.map Prod.fst).Nodup →
      (keysOf emap).Nodup →
      ∃ news : List Secret,
        (sync_loop pid false st emap res ds).2.1.secrets = st.secrets ++ news ∧
        (∀ x ∈ news, x.key ∈ ds.map Prod.fst ∧ x.key ∉ keysOf emap) ∧
        (∀ ev ∈ (sync_loop pid false st emap res ds).2.2.1,
          eventKey ev ∈ ds.map Prod.fst ∧ eventKey ev ∉ keysOf emap) ∧
        (∀ rs, (sync_loop pid false st emap res ds).1 = Except.ok rs →
          (∀ x ∈ res, x ∈ rs) ∧
          ∀ kv ∈ ds, ∀ e, alookup emap kv.1 = some e → e ∈ rs) := by
  intro ds
  induction ds with
  | nil =>
      intro st emap res _ _ _
      refine ⟨[], by simp [sync_loop], by simp, by simp [sync_loop], ?_⟩
      intro rs hrs
      simp only [sync_loop] at hrs
      injection hrs with h1
      exact ⟨fun x hx => h1 ▸ hx, by simp⟩
  | cons kv rest ih =>
      intro st emap res hfr hnd hemk
      have hndr : (rest.map Prod.fst).Nodup := (List.nodup_cons.mp hnd).2
      have hhead : kv.1 ∉ rest.map Prod.fst := (List.nodup_cons.mp hnd).1
      cases halk : alookup emap kv.1 with
      | some e =>
          obtain ⟨news, h1, h2, h3, h4⟩ :=
            ih st (removeKey emap kv.1) (res ++ [e]) hfr hndr
              (keysOf_removeKey_nodup emap kv.1 hemk)
          refine ⟨news, ?_, ?_, ?_, ?_⟩
          · simpa only [sync_loop, sync_step, halk] using h1
          · intro x hx
            obtain ⟨hk1, hk2⟩ := h2 x hx
            have hne : x.key ≠ kv.1 := fun he => hhead (he ▸ hk1)
            refine ⟨List.mem_cons_of_mem _ hk1, fun hm => ?_⟩
            exact hk2 (mem_keysOf_removeKey emap kv.1 x.key hm hne)
          · intro ev hev
            have hev' : ev ∈ (sync_loop pid false st (removeKey emap kv.1)
                (res ++ [e]) rest).2.2.1 := by
              simpa only [sync_loop, sync_step, halk, List.nil_append] using hev
            obtain ⟨hk1, hk2⟩ := h3 ev hev'
            have hne : eventKey ev ≠ kv.1 := fun he => hhead (he ▸ hk1)
            refine ⟨List.mem_cons_of_mem _ hk1, fun hm => ?_⟩
            exact hk2 (mem_keysOf_removeKey emap kv.1 (eventKey ev) hm hne)
          · intro rs hrs
            have hrs' : (sync_loop pid false st (removeKey emap kv.1)
                (res ++ [e]) rest).1 = Except.ok rs := by
              simpa only [sync_loop, sync_step, halk] using hrs
            obtain ⟨hres, hall⟩ := h4 rs hrs'
            refine ⟨fun x hx => hres x (List.mem_append_left _ hx), ?_⟩
            intro kv' hkv' e' he'
            rcases List.mem_cons.mp hkv' with h | h
            · have : e' = e := by
                rw [h] at he'
                rw [halk] at he'
                injection he' with hv
                exact hv.symm
              exact this ▸ hres e (List.mem_append_right _ (by simp))
            · have hne : kv'.1 ≠ kv.1 := by
                intro hee
                exact hhead (hee ▸ List.mem_map.mpr ⟨kv', h, rfl⟩)
              exact hall kv' h e' (by rw [alookup_removeKey_ne emap kv.1 kv'.1 hne]; exact he')
      | none =>
          cases hc : create_secret st pid kv.1 kv.2 none with
          | error e =>
              refine ⟨[], ?_, by simp, ?_, ?_⟩
              · simp only [sync_loop, sync_step, halk, hc, List.append_nil]
              · intro ev hev
                have : ev = SyncEvent.createEv kv.1 kv.2 := by
                  simpa only [sync_loop, sync_step, halk, hc, List.mem_singleton] using hev
                rw [this]
                exact ⟨List.mem_map.mpr ⟨kv, List.mem_cons_self kv rest, rfl⟩,
                  alookup_none_not_mem emap kv.1 halk⟩
              · intro rs hrs
                have : Except.error (α := List Secret) e = Except.ok rs := by
                  simpa only [sync_loop, sync_step, halk, hc] using hrs
                exact absurd this (by simp)
          | ok pr =>
              obtain ⟨s', st'⟩ := pr
              obtain ⟨hs'e, hst'e, -, -⟩ := create_secret_ok st pid kv.1 kv.2 none s' st' hc
              have hsecs : st'.secrets = st.secrets ++ [s'] := by
                rw [hst'e]
                exact insertById_fresh st.secrets s'
                  (fun x hx => by rw [hs'e]; exact hfr x hx st.next_secret_id (le_refl _))
              have hfr' : ∀ x ∈ st'.secrets, ∀ n, st'.next_secret_id ≤ n →
                  x.id ≠ mkSecretId n := by
                rw [hsecs, hst'e]
                intro x hx n hn
                simp only [] at hn
                rcases List.mem_append.mp hx with h | h
                · exact hfr x h n (by omega)
                · have hxe : x = s' := by simpa using h
                  rw [hxe, hs'e]
                  intro he
                  have := mkSecretId_inj _ _ he
                  omega
              obtain ⟨news, h1, h2, h3, h4⟩ := ih st' emap (res ++ [s']) hfr' hndr hemk
              have hs'key : s'.key = kv.1 := by rw [hs'e]
              refine ⟨s' :: news, ?_, ?_, ?_, ?_⟩
              · have : (sync_loop pid false st emap res (kv :: rest)).2.1.secrets =
                    (sync_loop pid false st' emap (res ++ [s']) rest).2.1.secrets := by
                  simp only [sync_loop, sync_step, halk, hc]
                rw [this, h1, hsecs, List.append_assoc, List.singleton_append]
              · intro x hx
                rcases List.mem_cons.mp hx with h | h
                · rw [h, hs'key]
                  exact ⟨List.mem_map.mpr ⟨kv, List.mem_cons_self kv rest, rfl⟩,
                    alookup_none_not_mem emap kv.1 halk⟩
                · obtain ⟨hk1, hk2⟩ := h2 x h
                  exact ⟨List.mem_cons_of_mem _ hk1, hk2⟩
              · intro ev hev
                have hev' : ev = SyncEvent.createEv kv.1 kv.2 ∨
                    ev ∈ (sync_loop pid false st' emap (res ++ [s']) rest).2.2.1 := by
                  have := hev
                  simp only [sync_loop, sync_step, halk, hc, List.cons_append,
                    List.nil_append, List.mem_cons] at this
                  exact this
                rcases hev' with h | h
                · rw [h]
                  exact ⟨List.mem_map.mpr ⟨kv, List.mem_cons_self kv rest, rfl⟩,
                    alookup_none_not_mem emap kv.1 halk⟩
                · obtain ⟨hk1, hk2⟩ := h3 ev h
                  exact ⟨List.mem_cons_of_mem _ hk1, hk2⟩
              · intro rs hrs
                have hrs' : (sync_loop pid false st' emap (res ++ [s']) rest).1 =
                    Except.ok rs := by
                  simpa only [sync_loop, sync_step, halk, hc] using hrs
                obtain ⟨hres, hall⟩ := h4 rs hrs'
                refine ⟨fun x hx => hres x (List.mem_append_left _ hx), ?_⟩
                intro kv' hkv' e' he'
                rcases List.mem_cons.mp hkv' with h | h
                · rw [h, halk] at he'
                  exact absurd he' (by simp)
                · exact hall kv' h e' he'

/-- C7: with `overwrite = false`, a key present both remotely and in the
desired mapping sees no remote write: its observed remote value is
unchanged, no create/update call carries it, and on success the result
list contains the pre-existing indexed secret for it. -/
theorem sync_secrets_no_overwrite_preserves (st : MockState) (pid : String)
    (desired : List (String × String)) (k v : String)
    (hfresh : ∀ x ∈ st.secrets, ∀ n, st.next_secret_id ≤ n → x.id ≠ mkSecretId n)
    (hnd : (desired.map Prod.fst).Nodup)
    (hkv : (k, v) ∈ desired)
    (hremote : k ∈ keysOf (syncIndex st pid)) :
    projLookup (sync_secrets st pid desired false).2.1 pid k = projLookup st pid k ∧
    (∀ ev ∈ (sync_secrets st pid desired false).2.2.1, eventKey ev ≠ k) ∧
    (∀ rs, (sync_secrets st pid desired false).1 = Except.ok rs →
      ∃ e, alookup (syncIndex st pid) k = some e ∧ e ∈ rs) := by
  obtain ⟨news, h1, h2, h3, h4⟩ :=
    sync_loop_no_overwrite pid desired st (syncIndex st pid) [] hfresh hnd
      (foldInsert_keys_nodup _ [] (by simp [keysOf]))
  refine ⟨?_, ?_, ?_⟩
  · rw [projLookup_eq_lastFilter, projLookup_eq_lastFilter]
    have hls : list_secrets (sync_secrets st pid desired false).2.1 pid =
        list_secrets st pid ++ news.filter (fun s => s.project_id == pid) := by
      rw [list_secrets, show (sync_secrets st pid desired false).2.1.secrets =
        st.secrets ++ news from h1, List.filter_append, list_secrets]
    rw [hls, List.filter_append,
      show (news.filter (fun s => s.project_id == pid)).filter
          (fun s => s.key = k) = [] from ?_, List.append_nil]
    rw [List.filter_eq_nil_iff]
    intro x hx
    have hxn : x ∈ news := List.mem_of_mem_filter hx
    have := (h2 x hxn).2
    simp only [decide_eq_true_eq]
    intro he
    exact this (he ▸ hremote)
  · intro ev hev
    have := (h3 ev hev).2
    intro he
    exact this (he ▸ hremote)
  · intro rs hrs
    obtain ⟨e, he⟩ := mem_keysOf_alookup _ k hremote
    exact ⟨e, he, (h4 rs hrs).2 (k, v) hkv e he⟩

/-- Witness for C7 at a concrete store: syncing `K` with a new value and
`overwrite = false` leaves the remote value `old` in place. -/
theorem sync_no_overwrite_witness :
    projLookup (sync_secrets
        ⟨[⟨"p", "proj", "org"⟩], [⟨"sec_1", "K", "old", none, "p"⟩], 2⟩
        "p" [("K", "new")] false).2.1 "p" "K" =
      projLookup ⟨[⟨"p", "proj", "org"⟩], [⟨"sec_1", "K", "old", none, "p"⟩], 2⟩ "p" "K" ∧
    (∀ ev ∈ (sync_secrets
        ⟨[⟨"p", "proj", "org"⟩], [⟨"sec_1", "K", "old", none, "p"⟩], 2⟩
        "p" [("K", "new")] false).2.2.1, eventKey ev ≠ "K") ∧
    (∀ rs, (sync_secrets
        ⟨[⟨"p", "proj", "org"⟩], [⟨"sec_1", "K", "old", none, "p"⟩], 2⟩
        "p" [("K", "new")] false).1 = Except.ok rs →
      ∃ e, alookup (syncIndex
        ⟨[⟨"p", "proj", "org"⟩], [⟨"sec_1", "K", "old", none, "p"⟩], 2⟩ "p") "K" =
          some e ∧ e ∈ rs) :=
  sync_secrets_no_overwrite_preserves
    ⟨[⟨"p", "proj", "org"⟩], [⟨"sec_1", "K", "old", none, "p"⟩], 2⟩
    "p" [("K", "new")] "K" "new"
    (by
      intro x hx n _
      have hxlen : x.id.length < 12 := by
        rcases List.mem_cons.mp hx with h | h
        · rw [h]; decide
        · simp at h
      exact short_id_ne_mkSecretId x.id hxlen n)
    (by decide) (by decide) (by decide)

theorem getLast?_mem {α : Type} (l : List α) (x : α) (h : l.getLast? = some x) :
    x ∈ l := by
  obtain ⟨hne, heq⟩ := List.mem_getLast?_eq_getLast (Option.mem_def.mpr h)
  rw [heq]
  exact List.getLast_mem hne

theorem map_id_insertById (l : List Secret) (u : Secret)
    (h : ∃ y ∈ l, y.id = u.id) :
    (insertById l u).map Secret.id = l.map Secret.id := by
  induction l with
  | nil => simp at h
  | cons x rest ih =>
      by_cases hx : x.id = u.id
      · rw [insertById, if_pos hx]
        simp [hx]
      · rw [insertById, if_neg hx]
        obtain ⟨y, hy, hye⟩ := h
        rcases List.mem_cons.mp hy with h | h
        · exact absurd (h ▸ hye) hx
        · simp only [List.map_cons]
          rw [ih ⟨y, h, hye⟩]

theorem filter_insertById (l : List Secret) (u : Secret) (p : Secret → Bool)
    (hu : p u = true) (hl : ∀ y ∈ l, y.id = u.id → p y = true) :
    (insertById l u).filter p = insertById (l.filter p) u := by
  induction l with
  | nil => simp [insertById, List.filter_cons, hu]
  | cons x rest ih =>
      by_cases hx : x.id = u.id
      · rw [insertById, if_pos hx]
        have hpx : p x = true := hl x (List.mem_cons_self x rest) hx
        rw [List.filter_cons, if_pos (by simp [hu]), List.filter_cons,
          if_pos (by simp [hpx]), insertById, if_pos hx]
      · rw [insertById, if_neg hx]
        have hrest : ∀ y ∈ rest, y.id = u.id → p y = true :=
          fun y hy => hl y (List.mem_cons_of_mem x hy)
        by_cases hpx : p x = true
        · rw [List.filter_cons, if_pos (by simp [hpx]), List.filter_cons,
            if_pos (by simp [hpx]), insertById, if_neg hx, ih hrest]
        · rw [List.filter_cons, if_neg (by simpa using hpx), List.filter_cons,
            if_neg (by simpa using hpx), ih hrest]

theorem filter_insertById_out (l : List Secret) (u : Secret) (p : Secret → Bool)
    (hu : p u = false) (hl : ∀ y ∈ l, y.id = u.id → p y = false) :
    (insertById l u).filter p = l.filter p := by
  induction l with
  | nil => simp [insertById, List.filter_cons, hu]
  | cons x rest ih =>
      by_cases hx : x.id = u.id
      · rw [insertById, if_pos hx]
        have hpx : p x = false := hl x (List.mem_cons_self x rest) hx
        rw [List.filter_cons, if_neg (by simp [hu]), List.filter_cons,
          if_neg (by simp [hpx])]
      · rw [insertById, if_neg hx]
        have hrest : ∀ y ∈ rest, y.id = u.id → p y = false :=
          fun y hy => hl y (List.mem_cons_of_mem x hy)
        by_cases hpx : p x = true
        · rw [List.filter_cons, if_pos (by simp [hpx]), List.filter_cons,
            if_pos (by simp [hpx]), ih hrest]
        · rw [List.filter_cons, if_neg (by simpa using hpx), List.filter_cons,
            if_neg (by simpa using hpx), ih hrest]

theorem getLast?_insertById (l : List Secret) (u x : Secret)
    (hnd : (l.map Secret.id).Nodup) (hlast : l.getLast? = some x)
    (hid : u.id = x.id) : (insertById l u).getLast? = some u := by
  induction l with
  | nil => simp at hlast
  | cons y rest ih =>
      cases hr : rest with
      | nil =>
          have hyx : y = x := by
            rw [hr] at hlast
            simpa using hlast
          rw [insertById, if_pos (by rw [hyx, ← hid])]
          simp
      | cons z zs =>
          rw [hr] at hlast
          have hlast' : rest.getLast? = some x := by
            rw [hr]
            rw [← List.getLast?_cons_cons (a := y) (b := z) (l := zs)]
            exact hlast
          have hxrest : x ∈ rest := getLast?_mem rest x hlast'
          have hyne : ¬ (y.id = u.id) := by
            intro he
            rw [hid] at he
            simp only [List.map_cons, List.nodup_cons] at hnd
            exact hnd.1 (he ▸ List.mem_map.mpr ⟨x, hxrest, rfl⟩)
          rw [insertById, if_neg hyne]
          have hnd' : (rest.map Secret.id).Nodup := by
            simp only [List.map_cons, List.nodup_cons] at hnd
            exact hnd.2
          have := ih hnd' hlast'
          cases hins : insertById rest u with
          | nil =>
              rw [hins] at this
              simp at this
          | cons w ws =>
              rw [hins] at this
              rw [hr] at hins
              rw [hins, List.getLast?_cons_cons]
              exact this

theorem find?_id_char (l : List Secret) (sid : String) (ex : Secret)
    (h : l.find? (fun s => s.id == sid) = some ex) : ex ∈ l ∧ ex.id = sid := by
  have hm := List.mem_of_find?_eq_some h
  have hp := List.find?_some h
  exact ⟨hm, by simpa using hp⟩

theorem not_mem_keysOf_alookup_none {β : Type} (l : List (String × β)) (k : String)
    (h : k ∉ keysOf l) : alookup l k = none := by
  cases ha : alookup l k with
  | none => rfl
  | some v =>
      exact absurd (List.mem_map.mpr ⟨(k, v), alookup_mem l k v ha, rfl⟩) h

theorem alookup_removeKey_self {β : Type} (l : List (String × β)) (k : String)
    (hnd : (keysOf l).Nodup) : alookup (removeKey l k) k = none := by
  induction l with
  | nil => simp [removeKey, alookup]
  | cons p rest ih =>
      simp only [keysOf, List.map_cons, List.nodup_cons] at hnd
      by_cases hp : p.1 = k
      · rw [removeKey, if_pos hp]
        exact not_mem_keysOf_alookup_none rest k (hp ▸ hnd.1)
      · rw [removeKey, if_neg hp, alookup, if_neg hp]
        exact ih hnd.2

theorem map_id_filter_nodup (l : List Secret) (p : Secret → Bool)
    (h : (l.map Secret.id).Nodup) : ((l.filter p).map Secret.id).Nodup :=
  h.sublist (List.Sublist.map Secret.id (List.filter_sublist l))

theorem mem_list_secrets (st : MockState) (pid : String) (x : Secret)
    (h : x ∈ list_secrets st pid) : x ∈ st.secrets ∧ x.project_id = pid := by
  rw [list_secrets] at h
  have := List.mem_filter.mp h
  exact ⟨this.1, by simpa using this.2⟩

theorem sync_loop_overwrite (pid : String) :
    ∀ (ds : List (String × String)) (st : MockState) (emap : List (String × Secret))
      (res : List Secret),
      (st.secrets.map Secret.id).Nodup →
      (∀ x ∈ st.secrets, ∀ n, st.next_secret_id ≤ n → x.id ≠ mkSecretId n) →
      (∀ k' e', alookup emap k' = some e' →
        ∃ x, ((list_secrets st pid).filter (fun s => s.key = k')).getLast? = some x ∧
          x.id = e'.id) →
      (keysOf emap).Nodup →
      (ds.map Prod.fst).Nodup →
      (∀ k, k ∉ ds.map Prod.fst →
        (list_secrets (sync_loop pid true st emap res ds).2.1 pid).filter
            (fun s => s.key = k) =
          (list_secrets st pid).filter (fun s => s.key = k)) ∧
      (∀ rs, (sync_loop pid true st emap res ds).1 = Except.ok rs →
        ∀ kv ∈ ds,
          ((((list_secrets (sync_loop pid true st emap res ds).2.1 pid).filter
            (fun s => s.key = kv.1)).getLast?).map Secret.value) = some kv.2) := by
  intro ds
  induction ds with
  | nil =>
      intro st emap res _ _ _ _ _
      exact ⟨fun k _ => by simp [sync_loop], fun rs _ kv hkv => by simp at hkv⟩
  | cons kv rest ih =>
      intro st emap res hA hB hC hD hnd
      have hndr : (rest.map Prod.fst).Nodup := (List.nodup_cons.mp hnd).2
      have hhead : kv.1 ∉ rest.map Prod.fst := (List.nodup_cons.mp hnd).1
      have hinj := List.inj_on_of_nodup_map hA
      cases halk : alookup emap kv.1 with
      | some e =>
          obtain ⟨x, hx, hxid⟩ := hC kv.1 e halk
          have hxmem := getLast?_mem _ _ hx
          have hxkey : x.key = kv.1 := by
            have := (List.mem_filter.mp hxmem).2
            simpa using this
          have hxls : x ∈ list_secrets st pid := List.mem_of_mem_filter hxmem
          obtain ⟨hxs, hxpid⟩ := mem_list_secrets st pid x hxls
          cases hu : update_secret st e.id kv.1 kv.2 e.note with
          | error eu =>
              constructor
              · intro k _
                have hstate : (sync_loop pid true st emap res (kv :: rest)).2.1 = st := by
                  simp only [sync_loop, sync_step, halk, if_pos, hu]
                rw [hstate]
              · intro rs hrs kv' _
                have : (Except.error eu : Except AppError (List Secret)) =
                    Except.ok rs := by
                  simpa only [sync_loop, sync_step, halk, if_pos, hu] using hrs
                exact absurd this (by simp)
          | ok pr =>
              obtain ⟨u, st'⟩ := pr
              obtain ⟨existing, hfind, hue, hst'e⟩ :=
                update_secret_ok st e.id kv.1 kv.2 e.note u st' hu
              obtain ⟨hexmem, hexid⟩ := find?_id_char st.secrets e.id existing hfind
              have hexx : existing = x := hinj hexmem hxs (by rw [hexid, ← hxid])
              have huid : u.id = x.id := by rw [hue]; exact hxid.symm
              have hukey : u.key = kv.1 := by rw [hue]
              have huval : u.value = kv.2 := by rw [hue]
              have hupid : u.project_id = pid := by
                rw [hue]
                show existing.project_id = pid
                rw [hexx]
                exact hxpid
              have hsecs' : st'.secrets = insertById st.secrets u := by rw [hst'e]
              have hidem : ∀ y ∈ st.secrets, y.id = u.id → y = x := by
                intro y hy hyid
                exact hinj hy hxs (by rw [hyid, huid])
              have hlist' : list_secrets st' pid = insertById (list_secrets st pid) u := by
                have hfi := filter_insertById st.secrets u (fun s => s.project_id == pid)
                  (by simp [hupid])
                  (fun y hy hyid => by rw [hidem y hy hyid]; simp [hxpid])
                rw [list_secrets, hsecs', hfi]
                rfl
              have hframe : ∀ k₂, k₂ ≠ kv.1 →
                  (list_secrets st' pid).filter (fun s => s.key = k₂) =
                  (list_secrets st pid).filter (fun s => s.key = k₂) := by
                intro k₂ hk₂
                rw [hlist']
                apply filter_insertById_out
                · simp only [hukey, decide_eq_false_iff_not]
                  exact fun he => hk₂ he.symm
                · intro y hy hyid
                  obtain ⟨hys, -⟩ := mem_list_secrets st pid y hy
                  rw [hidem y hys hyid]
                  simp only [hxkey, decide_eq_false_iff_not]
                  exact fun he => hk₂ he.symm
              have hA' : (st'.secrets.map Secret.id).Nodup := by
                rw [hsecs', map_id_insertById st.secrets u ⟨x, hxs, huid.symm⟩]
                exact hA
              have hB' : ∀ y ∈ st'.secrets, ∀ n, st'.next_secret_id ≤ n →
                  y.id ≠ mkSecretId n := by
                intro y hy n hn
                have hn' : st.next_secret_id ≤ n := by
                  have : st'.next_secret_id = st.next_secret_id := by rw [hst'e]
                  rw [this] at hn
                  exact hn
                rw [hsecs'] at hy
                rcases mem_insertById st.secrets u y hy with h | h
                · exact hB y h n hn'
                · rw [h]
                  intro he
                  exact hB x hxs n hn' (huid ▸ he)
              have hC' : ∀ k₂ e₂, alookup (removeKey emap kv.1) k₂ = some e₂ →
                  ∃ x₂, ((list_secrets st' pid).filter
                    (fun s => s.key = k₂)).getLast? = some x₂ ∧ x₂.id = e₂.id := by
                intro k₂ e₂ h₂
                have hk₂ : k₂ ≠ kv.1 := by
                  intro he
                  rw [he, alookup_removeKey_self emap kv.1 hD] at h₂
                  exact absurd h₂ (by simp)
                rw [alookup_removeKey_ne emap kv.1 k₂ hk₂] at h₂
                obtain ⟨x₂, hx₂, hid₂⟩ := hC k₂ e₂ h₂
                exact ⟨x₂, by rw [hframe k₂ hk₂]; exact hx₂, hid₂⟩
              have hD' := keysOf_removeKey_nodup emap kv.1 hD
              obtain ⟨ihα, ihβ⟩ :=
                ih st' (removeKey emap kv.1) (res ++ [u]) hA' hB' hC' hD' hndr
              have hstate : (sync_loop pid true st emap res (kv :: rest)).2.1 =
                  (sync_loop pid true st' (removeKey emap kv.1) (res ++ [u]) rest).2.1 := by
                simp only [sync_loop, sync_step, halk, if_pos, hu]
              have hresq : (sync_loop pid true st emap res (kv :: rest)).1 =
                  (sync_loop pid true st' (removeKey emap kv.1) (res ++ [u]) rest).1 := by
                simp only [sync_loop, sync_step, halk, if_pos, hu]
              constructor
              · intro k hk
                have hk1 : k ≠ kv.1 := by
                  intro he
                  exact hk (he ▸ List.mem_map.mpr ⟨kv, List.mem_cons_self kv rest, rfl⟩)
                have hkr : k ∉ rest.map Prod.fst := by
                  intro h
                  rcases List.mem_map.mp h with ⟨q, hq, hqe⟩
                  exact hk (List.mem_map.mpr ⟨q, List.mem_cons_of_mem kv hq, hqe⟩)
                rw [hstate, ihα k hkr, hframe k hk1]
              · intro rs hrs kv' hkv'
                rw [hresq] at hrs
                rcases List.mem_cons.mp hkv' with h | h
                · rw [h, hstate, ihα kv.1 hhead]
                  have hfk : (list_secrets st' pid).filter (fun s => s.key = kv.1) =
                      insertById ((list_secrets st pid).filter
                        (fun s => s.key = kv.1)) u := by
                    rw [hlist']
                    apply filter_insertById
                    · simp [hukey]
                    · intro y hy hyid
                      obtain ⟨hys, -⟩ := mem_list_secrets st pid y hy
                      rw [hidem y hys hyid]
                      simp [hxkey]
                  rw [hfk, getLast?_insertById _ u x
                    (map_id_filter_nodup (list_secrets st pid) _
                      (map_id_filter_nodup st.secrets _ hA)) hx huid]
                  simp [huval]
                · rw [hstate]
                  exact ihβ rs hrs kv' h
      | none =>
          cases hc : create_secret st pid kv.1 kv.2 none with
          | error ec =>
              constructor
              · intro k _
                have hstate : (sync_loop pid true st emap res (kv :: rest)).2.1 = st := by
                  simp only [sync_loop, sync_step, halk, hc]
                rw [hstate]
              · intro rs hrs kv' _
                have : (Except.error ec : Except AppError (List Secret)) =
                    Except.ok rs := by
                  simpa only [sync_loop, sync_step, halk, hc] using hrs
                exact absurd this (by simp)
          | ok pr =>
              obtain ⟨s', st'⟩ := pr
              obtain ⟨hs'e, hst'e, -, -⟩ := create_secret_ok st pid kv.1 kv.2 none s' st' hc
              have hs'key : s'.key = kv.1 := by rw [hs'e]
              have hs'val : s'.value = kv.2 := by rw [hs'e]
              have hs'pid : s'.project_id = pid := by rw [hs'e]
              have hsecs' : st'.secrets = st.secrets ++ [s'] := by
                rw [hst'e]
                exact insertById_fresh st.secrets s'
                  (fun y hy => by rw [hs'e]; exact hB y hy st.next_secret_id (le_refl _))
              have hlist' : list_secrets st' pid = list_secrets st pid ++ [s'] := by
                rw [list_secrets, hsecs', List.filter_append, list_secrets]
                congr 1
                simp [hs'pid]
              have hframe : ∀ k₂, k₂ ≠ kv.1 →
                  (list_secrets st' pid).filter (fun s => s.key = k₂) =
                  (list_secrets st pid).filter (fun s => s.key = k₂) := by
                intro k₂ hk₂
                rw [hlist', List.filter_append]
                have : [s'].filter (fun s => s.key = k₂) = [] := by
                  simp only [List.filter_cons, List.filter_nil, hs'key,
                    decide_eq_false_iff_not]
                  rw [if_neg]
                  simp only [hs'key, decide_eq_true_eq]
                  exact fun he => hk₂ he.symm
                rw [this, List.append_nil]
              have hA' : (st'.secrets.map Secret.id).Nodup := by
                rw [hsecs', List.map_append, List.nodup_append]
                refine ⟨hA, by simp, ?_⟩
                intro a ha hb
                simp only [List.map_cons, List.map_nil, List.mem_singleton] at hb
                rcases List.mem_map.mp ha with ⟨y, hy, hye⟩
                rw [← hye] at hb
                exact hB y hy st.next_secret_id (le_refl _) (by rw [hb, hs'e])
              have hB' : ∀ y ∈ st'.secrets, ∀ n, st'.next_secret_id ≤ n →
                  y.id ≠ mkSecretId n := by
                intro y hy n hn
                have hn' : st.next_secret_id + 1 ≤ n := by
                  have : st'.next_secret_id = st.next_secret_id + 1 := by rw [hst'e]
                  rw [this] at hn
                  exact hn
                rw [hsecs'] at hy
                rcases List.mem_append.mp hy with h | h
                · exact hB y h n (by omega)
                · have hye : y = s' := by simpa using h
                  rw [hye, hs'e]
                  intro he
                  have := mkSecretId_inj _ _ he
                  omega
              have hC' : ∀ k₂ e₂, alookup emap k₂ = some e₂ →
                  ∃ x₂, ((list_secrets st' pid).filter
                    (fun s => s.key = k₂)).getLast? = some x₂ ∧ x₂.id = e₂.id := by
                intro k₂ e₂ h₂
                have hk₂ : k₂ ≠ kv.1 := by
                  intro he
                  rw [he, halk] at h₂
                  exact absurd h₂ (by simp)
                obtain ⟨x₂, hx₂, hid₂⟩ := hC k₂ e₂ h₂
                exact ⟨x₂, by rw [hframe k₂ hk₂]; exact hx₂, hid₂⟩
              obtain ⟨ihα, ihβ⟩ := ih st' emap (res ++ [s']) hA' hB' hC' hD hndr
              have hstate : (sync_loop pid true st emap res (kv :: rest)).2.1 =
                  (sync_loop pid true st' emap (res ++ [s']) rest).2.1 := by
                simp only [sync_loop, sync_step, halk, hc]
              have hresq : (sync_loop pid true st emap res (kv :: rest)).1 =
                  (sync_loop pid true st' emap (res ++ [s']) rest).1 := by
                simp only [sync_loop, sync_step, halk, hc]
              constructor
              · intro k hk
                have hk1 : k ≠ kv.1 := by
                  intro he
                  exact hk (he ▸ List.mem_map.mpr ⟨kv, List.mem_cons_self kv rest, rfl⟩)
                have hkr : k ∉ rest.map Prod.fst := by
                  intro h
                  rcases List.mem_map.mp h with ⟨q, hq, hqe⟩
                  exact hk (List.mem_map.mpr ⟨q, List.mem_cons_of_mem kv hq, hqe⟩)
                rw [hstate, ihα k hkr, hframe k hk1]
              · intro rs hrs kv' hkv'
                rw [hresq] at hrs
                rcases List.mem_cons.mp hkv' with h | h
                · rw [h, hstate, ihα kv.1 hhead]
                  have hfk : (list_secrets st' pid).filter (fun s => s.key = kv.1) =
                      ((list_secrets st pid).filter (fun s => s.key = kv.1)) ++ [s'] := by
                    rw [hlist', List.filter_append]
                    congr 1
                    simp [hs'key]
                  rw [hfk, List.getLast?_concat]
                  simp [hs'val]
                · rw [hstate]
                  exact ihβ rs hrs kv' h

theorem alookup_syncIndex (st : MockState) (pid k' : String) :
    alookup (syncIndex st pid) k' =
      ((list_secrets st pid).filter (fun s => s.key = k')).getLast? := by
  rw [syncIndex, foldInsert_alookup, alookup_reverse_eq_lastFilter]
  have hfm : ((list_secrets st pid).map (fun s => (s.key, s))).filter
      (fun p => p.1 = k') =
      ((list_secrets st pid).filter (fun s => s.key = k')).map
        (fun s => (s.key, s)) := by
    rw [List.filter_map]
    rfl
  rw [hfm, List.getLast?_map]
  cases ((list_secrets st pid).filter (fun s => s.key = k')).getLast? with
  | none => simp [alookup]
  | some x => simp

/-- C6: with `overwrite = true`, after `sync_secrets` completes without
error every desired key observes its desired value in the remote
projection (given the `HashMap` well-formedness of the initial store:
distinct secret ids, none in the mock's minted-id namespace, and distinct
desired keys). -/
theorem sync_secrets_overwrite_converges (st : MockState) (pid : String)
    (desired : List (String × String)) (rs : List Secret)
    (hids : (st.secrets.map Secret.id).Nodup)
    (hfresh : ∀ x ∈ st.secrets, ∀ n, st.next_secret_id ≤ n → x.id ≠ mkSecretId n)
    (hnd : (desired.map Prod.fst).Nodup)
    (hok : (sync_secrets st pid desired true).1 = Except.ok rs) :
    ∀ kv ∈ desired,
      projLookup (sync_secrets st pid desired true).2.1 pid kv.1 = some kv.2 := by
  intro kv hkv
  have hC0 : ∀ k' e', alookup (syncIndex st pid) k' = some e' →
      ∃ x, ((list_secrets st pid).filter (fun s => s.key = k')).getLast? = some x ∧
        x.id = e'.id := by
    intro k' e' h
    rw [alookup_syncIndex] at h
    exact ⟨e', h, rfl⟩
  have hD0 : (keysOf (syncIndex st pid)).Nodup :=
    foldInsert_keys_nodup _ [] (by simp [keysOf])
  obtain ⟨-, hβ⟩ :=
    sync_loop_overwrite pid desired st (syncIndex st pid) [] hids hfresh hC0 hD0 hnd
  rw [projLookup_eq_lastFilter]
  simp only [sync_secrets] at hok ⊢
  exact hβ rs hok kv hkv

/-- Witness for C6: overwriting `K` and creating `N` in a concrete store
makes both desired keys observe their desired values. -/
theorem sync_overwrite_converges_witness :
    projLookup (sync_secrets
      ⟨[⟨"p", "proj", "org"⟩], [⟨"sec_1", "K", "old", none, "p"⟩], 2⟩
      "p" [("K", "new"), ("N", "v2")] true).2.1 "p" "K" = some "new" ∧
    projLookup (sync_secrets
      ⟨[⟨"p", "proj", "org"⟩], [⟨"sec_1", "K", "old", none, "p"⟩], 2⟩
      "p" [("K", "new"), ("N", "v2")] true).2.1 "p" "N" = some "v2" :=
  ⟨sync_secrets_overwrite_converges
      ⟨[⟨"p", "proj", "org"⟩], [⟨"sec_1", "K", "old", none, "p"⟩], 2⟩
      "p" [("K", "new"), ("N", "v2")]
      [⟨"sec_1", "K", "new", none, "p"⟩, ⟨mkSecretId 2, "N", "v2", none, "p"⟩]
      (by decide)
      (by
        intro x hx n _
        have hxlen : x.id.length < 12 := by
          rcases List.mem_cons.mp hx with h | h
          · rw [h]; decide
          · simp at h
        exact short_id_ne_mkSecretId x.id hxlen n)
      (by decide) rfl ("K", "new") (by decide),
   sync_secrets_overwrite_converges
      ⟨[⟨"p", "proj", "org"⟩], [⟨"sec_1", "K", "old", none, "p"⟩], 2⟩
      "p" [("K", "new"), ("N", "v2")]
      [⟨"sec_1", "K", "new", none, "p"⟩, ⟨mkSecretId 2, "N", "v2", none, "p"⟩]
      (by decide)
      (by
        intro x hx n _
        have hxlen : x.id.length < 12 := by
          rcases List.mem_cons.mp hx with h | h
          · rw [h]; decide
          · simp at h
        exact short_id_ne_mkSecretId x.id hxlen n)
      (by decide) rfl ("N", "v2") (by decide)⟩

/-- C9 counterexample: the text `"  # A=1"` consists of a single line that
is ignorable after trimming (it trims to `"# A=1"`, which starts with
`'#'`), yet the read operation produces the entry `("# A", "1")` from it. -/
theorem retrieve_secrets_trimmed_comment_counterexample :
    startsWithChar (String.mk (trimChars "  # A=1".data)) '#' = true ∧
    rustLines "  # A=1" = ["  # A=1"] ∧
    retrieve_secrets_parse "  # A=1" = [("# A", "1")] := by
  refine ⟨by decide, by decide, by decide⟩

/-- Witness for the amended C9 theorem: dropping the comment line of a
concrete three-line text leaves the parse unchanged. -/
theorem retrieve_secrets_skip_witness :
    retrieve_secrets_parse "A=1\n# c\nB=2" = parseLines (["A=1"] ++ ["B=2"]) :=
  retrieve_secrets_skips_untrimmed_ignorable "A=1\n# c\nB=2" ["A=1"] ["B=2"] "# c"
    (by decide) (by decide)

end Bwenv
